import Mathlib

/-!
SimpleLang compiler: lexer, parser, symbol table and code generator.

A shallow embedding of `src/lexer.h`, `src/lexer.c` and `src/parser.c`.

Modelling conventions.

* The input `FILE *` is the list of characters not yet read; one model
  character stands for one byte and the `<ctype.h>` predicates are those of
  the "C" locale (ASCII only).
* C strings are lists of characters.  `Token.text` is a `char[100]`, so the
  lexer stores at most 99 characters.
* The name buffers `char name[32]` of `Symbol` and `ASTNode` are filled with
  `strcpy` from a token text of up to 99 characters.  In a `Symbol` the field
  `int memory_address` lies right behind the buffer and is written after the
  copy, so of a name of 32 or more characters the table keeps the first 32
  followed by the bytes of the address (`storedName`).  In an `ASTNode` the
  copy runs on into the fields behind `name` (`value`, `op` and the child
  pointers, which a `Var` or `Decl` node does not use), and the string read
  back at `node->name`, by `addSymbol` right after the copy and by the code
  generator for a `Var` node, is the whole text: the nodes of the model carry
  the whole text.  Outside the model: the `next` pointer of a `Decl` node
  under a name of 77 or more characters, the heap behind the 88 bytes of a
  node under a name of 84 or more, and the memory behind `symbolTable` under
  a long name in its last entries.
* `int` is 32 bits wide, two's complement, stored lowest byte first.
* The global variables of `parser.c` are the fields of `Globals`; every
  function takes the globals and returns them.
* `error(msg)` prints the message and calls `exit(1)`: a function that
  reaches it returns `Except.error (e, g)` where `g` holds the globals at the
  moment of the exit.
* The mutually recursive parser functions take a recursion bound (`fuel`).
-/

namespace SimpleLang

/-! ## lexer.h -/

/-- Capacity of `Token.text`, terminating NUL included. -/
def MAX_TOKEN_LEN : Nat := 100

/-- The token classes of `lexer.h`. -/
inductive TokenType where
  | TOKEN_INT
  | TOKEN_IF
  | TOKEN_IDENTIFIER
  | TOKEN_NUMBER
  | TOKEN_ASSIGN
  | TOKEN_PLUS
  | TOKEN_MINUS
  | TOKEN_EQUAL
  | TOKEN_LPAREN
  | TOKEN_RPAREN
  | TOKEN_LBRACE
  | TOKEN_RBRACE
  | TOKEN_SEMICOLON
  | TOKEN_EOF
  | TOKEN_UNKNOWN
  deriving DecidableEq, Repr

/-- A token: its class and the text stored in the `char[100]` buffer (read as
a C string, so without the terminating NUL). -/
structure Token where
  type : TokenType
  text : List Char
  deriving DecidableEq, Repr

/-! ## ctype.h in the "C" locale -/

/-- The `isspace` of the C locale: space, `\t`, `\n`, `\v`, `\f`, `\r`. -/
def isspace (c : Char) : Bool :=
  c.toNat == 32 || (9 ≤ c.toNat && c.toNat ≤ 13)

/-- The `isalpha` of the C locale: `A`-`Z` and `a`-`z`. -/
def isalpha (c : Char) : Bool :=
  (65 ≤ c.toNat && c.toNat ≤ 90) || (97 ≤ c.toNat && c.toNat ≤ 122)

/-- The `isdigit` of C: `0`-`9`. -/
def isdigit (c : Char) : Bool :=
  48 ≤ c.toNat && c.toNat ≤ 57

/-- The `isalnum` of the C locale. -/
def isalnum (c : Char) : Bool :=
  isalpha c || isdigit c

/-- A character buffer read as a C string: the characters before the first
NUL. -/
def cstr : List Char → List Char
  | [] => []
  | c :: cs => if c.toNat = 0 then [] else c :: cstr cs

/-! ## lexer.c -/

/-- The inner loop of `getNextToken`,
`while (p(c = fgetc(file))) { if (len < MAX_TOKEN_LEN - 1) text[len++] = c; }`
followed by `ungetc(c, file)`: `text` is the buffer filled so far, the second
list is the unread input; the result is the final buffer and the unread input
after the push-back (pushing back `EOF` does nothing). -/
def scanRun (p : Char → Bool) : List Char → List Char → List Char × List Char
  | text, [] => (text, [])
  | text, c :: rest =>
    if p c then
      scanRun p (if text.length < MAX_TOKEN_LEN - 1 then text ++ [c] else text) rest
    else (text, c :: rest)

/-- The classification of a finished letter-led run: `strcmp` against the two
keywords. -/
def keywordType (text : List Char) : TokenType :=
  if text = ['i', 'n', 't'] then .TOKEN_INT
  else if text = ['i', 'f'] then .TOKEN_IF
  else .TOKEN_IDENTIFIER

/-- The `switch (c)` of `getNextToken` for a character `c` that is neither
white space, a letter nor a digit; `rest` is the input after `c`. -/
def scanSymbol (c : Char) (rest : List Char) : Token × List Char :=
  if c = '=' then
    match rest with
    | d :: rest2 =>
      if d = '=' then (⟨.TOKEN_EQUAL, ['=', '=']⟩, rest2)
      else (⟨.TOKEN_ASSIGN, ['=']⟩, d :: rest2)
    | [] => (⟨.TOKEN_ASSIGN, ['=']⟩, [])
  else if c = '+' then (⟨.TOKEN_PLUS, ['+']⟩, rest)
  else if c = '-' then (⟨.TOKEN_MINUS, ['-']⟩, rest)
  else if c = ';' then (⟨.TOKEN_SEMICOLON, [';']⟩, rest)
  else if c = '(' then (⟨.TOKEN_LPAREN, ['(']⟩, rest)
  else if c = ')' then (⟨.TOKEN_RPAREN, [')']⟩, rest)
  else if c = '{' then (⟨.TOKEN_LBRACE, ['{']⟩, rest)
  else if c = '}' then (⟨.TOKEN_RBRACE, ['}']⟩, rest)
  else (⟨.TOKEN_UNKNOWN, cstr [c]⟩, rest)

/-- The function `getNextToken(file, token)`: the token read and the input
left unread. -/
def getNextToken : List Char → Token × List Char
  | [] => (⟨.TOKEN_EOF, []⟩, [])
  | c :: rest =>
    if isspace c then getNextToken rest
    else if isalpha c then
      let r := scanRun isalnum [c] rest
      (⟨keywordType r.1, r.1⟩, r.2)
    else if isdigit c then
      let r := scanRun isdigit [c] rest
      (⟨.TOKEN_NUMBER, r.1⟩, r.2)
    else scanSymbol c rest

/-! ## parser.c: data -/

/-- The messages passed to `error`, and the two outcomes that only the model
has: `outOfFuel` (the recursion bound of the model was reached) and
`nullDereference` (the code generator followed a NULL child pointer, which
the C program does not survive). -/
inductive Err where
  | variableRedeclared
  | symbolTableOverflow
  | unknownStatement
  | expectedIdentifierAfterInt
  | missingSemicolon
  | usedBeforeDeclaration
  | expectedAssign
  | expectedLParen
  | expectedRParen
  | expectedLBrace
  | expectedEqual
  | invalidTerm
  | outOfFuel
  | nullDereference
  deriving DecidableEq, Repr

/-- The text that `error` prints after "Parser Error: ". -/
def Err.message : Err → String
  | .variableRedeclared => "Variable redeclared"
  | .symbolTableOverflow => "Symbol table overflow"
  | .unknownStatement => "Unknown statement"
  | .expectedIdentifierAfterInt => "Expected identifier after int"
  | .missingSemicolon => "Missing semicolon"
  | .usedBeforeDeclaration => "Variable used before declaration"
  | .expectedAssign => "Expected ="
  | .expectedLParen => "Expected ("
  | .expectedRParen => "Expected )"
  | .expectedLBrace => "Expected \x7b"
  | .expectedEqual => "Expected =="
  | .invalidTerm => "Invalid term"
  | .outOfFuel => ""
  | .nullDereference => ""

/-- The tagged tree of `struct ASTNode`, one constructor per `NodeType`,
each with the fields the parser fills in; the `next`-linked statement chains
are lists.  A `name` is the C string read at `node->name`, the whole token
text that `strcpy` put there. -/
inductive ASTNode where
  | NODE_PROGRAM (body : List ASTNode)
  | NODE_DECL (name : List Char)
  | NODE_ASSIGN (left right : ASTNode)
  | NODE_BINOP (op : Char) (left right : ASTNode)
  | NODE_IF (condition : ASTNode) (body : List ASTNode)
  | NODE_VAR (name : List Char)
  | NODE_NUM (value : Int)
  deriving Repr

/-- The field `name` of a node; `newNode` zeroes it, so it is the empty
string where the parser stores none. -/
def ASTNode.name : ASTNode → List Char
  | .NODE_DECL n => n
  | .NODE_VAR n => n
  | _ => []

/-- The field `left` of a node, `none` for the NULL left by `newNode`. -/
def ASTNode.left? : ASTNode → Option ASTNode
  | .NODE_ASSIGN l _ => some l
  | .NODE_BINOP _ l _ => some l
  | _ => none

/-- The field `right` of a node, `none` for the NULL left by `newNode`. -/
def ASTNode.right? : ASTNode → Option ASTNode
  | .NODE_ASSIGN _ r => some r
  | .NODE_BINOP _ _ r => some r
  | _ => none

/-- Table capacity. -/
def MAX_SYMBOLS : Nat := 100

/-- First address handed out. -/
def MEMORY_START : Int := 0x10

/-- An entry of `symbolTable`: `name` is the C string that `strcmp` and `%s`
read at the entry. -/
structure Symbol where
  name : List Char
  memory_address : Int
  deriving DecidableEq, Repr

/-- The lines that `generateStatement` and `generateExpression` print, one
constructor per format string: `LOADI A, %d`, `LOAD A, 0x%02X`,
`STORE A, 0x%02X`, `PUSH A`, `POP B`, `ADD A, B`, `SUB A, B`, `CMP A, %d`
(here `CMPI`), `CMP A, 0x%02X` (here `CMP`), `JNZ if_end_%d` and
`if_end_%d:`. -/
inductive Instr where
  | LOADI (value : Int)
  | LOAD (addr : Int)
  | STORE (addr : Int)
  | PUSH
  | POP
  | ADD
  | SUB
  | CMPI (value : Int)
  | CMP (addr : Int)
  | JNZ (label : Nat)
  | LABEL (label : Nat)
  deriving DecidableEq, Repr

/-- The conversion `%d` of an `int`. -/
def fmtD (v : Int) : String := toString v

/-- The conversion `%02X` of an `int`: the value read as an `unsigned int` of
32 bits, in upper-case hexadecimal, padded with zeros to two digits. -/
def fmt02X (v : Int) : String :=
  let ds := (Nat.toDigits 16 (v % 2 ^ 32).toNat).map Char.toUpper
  String.mk (List.replicate (2 - ds.length) '0' ++ ds)

/-- The line printed for an instruction (without the newline). -/
def Instr.render : Instr → String
  | .LOADI value => "LOADI A, " ++ fmtD value
  | .LOAD addr => "LOAD A, 0x" ++ fmt02X addr
  | .STORE addr => "STORE A, 0x" ++ fmt02X addr
  | .PUSH => "PUSH A"
  | .POP => "POP B"
  | .ADD => "ADD A, B"
  | .SUB => "SUB A, B"
  | .CMPI value => "CMP A, " ++ fmtD value
  | .CMP addr => "CMP A, 0x" ++ fmt02X addr
  | .JNZ label => "JNZ if_end_" ++ toString label
  | .LABEL label => "if_end_" ++ toString label ++ ":"

/-- The global variables of `parser.c`.  `file` is the unread input,
`symbolTable` holds the entries `0 .. symbolCount - 1` of the array, and
`asmFile` the instruction lines printed so far. -/
structure Globals where
  file : List Char
  currentToken : Token
  symbolTable : List Symbol
  nextMemoryAddress : Int
  labelCounter : Nat
  asmFile : List Instr
  deriving DecidableEq, Repr

/-- The number of entries in use. -/
def symbolCount (g : Globals) : Nat := g.symbolTable.length

/-- The globals at program start, reading `src`: uninitialised token buffer
(all zero), empty table, `nextMemoryAddress = MEMORY_START`,
`labelCounter = 0`. -/
def initGlobals (src : List Char) : Globals :=
  { file := src
    currentToken := ⟨.TOKEN_INT, []⟩
    symbolTable := []
    nextMemoryAddress := MEMORY_START
    labelCounter := 0
    asmFile := [] }

/-- What a function of `parser.c` yields: its value and the globals, or the
error it exited with and the globals at the exit. -/
abbrev Result (α : Type) := Except (Err × Globals) (α × Globals)

/-! ## parser.c: symbol table -/

/-- The function `advance(f)`. -/
def advance (g : Globals) : Globals :=
  { g with currentToken := (getNextToken g.file).1, file := (getNextToken g.file).2 }

/-- The function `lookupSymbol(name)` on the entries in use: the address of
the first entry with that name, `-1` when there is none. -/
def lookupSymbol : List Symbol → List Char → Int
  | [], _ => -1
  | s :: rest, name => if s.name = name then s.memory_address else lookupSymbol rest name

/-- Capacity of `Symbol.name` and of `ASTNode.name`, terminating NUL
included. -/
def NAME_LEN : Nat := 32

/-- The four bytes of an `int` in memory, lowest first. -/
def intBytes (v : Int) : List Char :=
  let n := (v % 4294967296).toNat
  [Char.ofNat (n % 256), Char.ofNat (n / 256 % 256), Char.ofNat (n / 65536 % 256),
    Char.ofNat (n / 16777216)]

/-- The C string at `symbolTable[i].name` after the two stores of `addSymbol`,
`strcpy(symbolTable[i].name, name)` and `symbolTable[i].memory_address = addr`.
A name of at most 31 characters fits the buffer with its NUL.  A longer one
runs over `memory_address`, which is written next: the string is then the
first 32 characters followed by the bytes of the address up to its first zero
byte (one byte for the addresses `0x10 .. 0x73` the program hands out; were
all four bytes non-zero, the string would run on into the next entry, which
the model leaves out). -/
def storedName (name : List Char) (addr : Int) : List Char :=
  if name.length < NAME_LEN then name else name.take NAME_LEN ++ cstr (intBytes addr)

/-- The function `addSymbol(name)`; the new entry holds the name as
`storedName` gives it. -/
def addSymbol (g : Globals) (name : List Char) : Except (Err × Globals) Globals :=
  if lookupSymbol g.symbolTable name ≠ -1 then .error (.variableRedeclared, g)
  else if symbolCount g ≥ MAX_SYMBOLS then .error (.symbolTableOverflow, g)
  else .ok { g with
    symbolTable := g.symbolTable ++ [⟨storedName name g.nextMemoryAddress, g.nextMemoryAddress⟩]
    nextMemoryAddress := g.nextMemoryAddress + 1 }

/-! ## parser.c: parser -/

/-- The value of `atoi` on a run of digits, read from the left with `acc` the
value so far. -/
def atoiFrom (acc : Int) : List Char → Int
  | [] => acc
  | c :: cs => if isdigit c then atoiFrom (acc * 10 + (c.toNat - 48 : Nat)) cs else acc

/-- A value cut to the 32 bits of an `int`. -/
def toInt32 (v : Int) : Int := (v + 2147483648) % 4294967296 - 2147483648

/-- The call `atoi(text)` on a number token (no sign, no leading blanks).  C
defines it when the value fits an `int`; beyond that the result is that of
the C library, here `(int) strtol(text, NULL, 10)` as in glibc: `strtol`
stops at `LONG_MAX = 2^63 - 1` and the conversion to `int` keeps the low 32
bits. -/
def atoi (text : List Char) : Int := toInt32 (min (atoiFrom 0 text) 9223372036854775807)

/-- The function `parseTerm`. -/
def parseTerm (g : Globals) : Result ASTNode :=
  if g.currentToken.type = .TOKEN_IDENTIFIER then
    if lookupSymbol g.symbolTable g.currentToken.text = -1 then
      .error (.usedBeforeDeclaration, g)
    else .ok (.NODE_VAR g.currentToken.text, advance g)
  else if g.currentToken.type = .TOKEN_NUMBER then
    .ok (.NODE_NUM (atoi g.currentToken.text), advance g)
  else .error (.invalidTerm, g)

/-- The function `parseExpression`. -/
def parseExpression (g : Globals) : Result ASTNode :=
  match parseTerm g with
  | .error e => .error e
  | .ok (left, g1) =>
    if g1.currentToken.type = .TOKEN_PLUS ∨ g1.currentToken.type = .TOKEN_MINUS then
      match parseTerm (advance g1) with
      | .error e => .error e
      | .ok (right, g2) =>
        .ok (.NODE_BINOP (g1.currentToken.text.headD (Char.ofNat 0)) left right, g2)
    else .ok (left, g1)

/-- The function `parseCondition`. -/
def parseCondition (g : Globals) : Result ASTNode :=
  let g1 := advance g
  if g1.currentToken.type ≠ .TOKEN_EQUAL then .error (.expectedEqual, g1)
  else
    match parseTerm (advance g1) with
    | .error e => .error e
    | .ok (right, g2) => .ok (.NODE_BINOP '=' (.NODE_VAR g.currentToken.text) right, g2)

/-- The function `parseDeclaration`. -/
def parseDeclaration (g : Globals) : Result ASTNode :=
  let g1 := advance g
  if g1.currentToken.type ≠ .TOKEN_IDENTIFIER then .error (.expectedIdentifierAfterInt, g1)
  else
    match addSymbol g1 g1.currentToken.text with
    | .error e => .error e
    | .ok g2 =>
      let g3 := advance g2
      if g3.currentToken.type ≠ .TOKEN_SEMICOLON then .error (.missingSemicolon, g3)
      else .ok (.NODE_DECL g1.currentToken.text, advance g3)

/-- The function `parseAssignment`. -/
def parseAssignment (g : Globals) : Result ASTNode :=
  if lookupSymbol g.symbolTable g.currentToken.text = -1 then
    .error (.usedBeforeDeclaration, g)
  else
    let g1 := advance g
    if g1.currentToken.type ≠ .TOKEN_ASSIGN then .error (.expectedAssign, g1)
    else
      match parseExpression (advance g1) with
      | .error e => .error e
      | .ok (expr, g2) =>
        if g2.currentToken.type ≠ .TOKEN_SEMICOLON then .error (.missingSemicolon, g2)
        else .ok (.NODE_ASSIGN (.NODE_VAR g.currentToken.text) expr, advance g2)

mutual
/-- The function `parseStatement`. -/
def parseStatement : Nat → Globals → Result ASTNode
  | 0, g => .error (.outOfFuel, g)
  | fuel + 1, g =>
    if g.currentToken.type = .TOKEN_INT then parseDeclaration g
    else if g.currentToken.type = .TOKEN_IDENTIFIER then parseAssignment g
    else if g.currentToken.type = .TOKEN_IF then parseIfStatement fuel g
    else .error (.unknownStatement, g)
/-- The function `parseIfStatement`. -/
def parseIfStatement : Nat → Globals → Result ASTNode
  | 0, g => .error (.outOfFuel, g)
  | fuel + 1, g =>
    let g1 := advance g
    if g1.currentToken.type ≠ .TOKEN_LPAREN then .error (.expectedLParen, g1)
    else
      match parseCondition (advance g1) with
      | .error e => .error e
      | .ok (condition, g2) =>
        if g2.currentToken.type ≠ .TOKEN_RPAREN then .error (.expectedRParen, g2)
        else
          let g3 := advance g2
          if g3.currentToken.type ≠ .TOKEN_LBRACE then .error (.expectedLBrace, g3)
          else
            match parseStatements .TOKEN_RBRACE fuel (advance g3) with
            | .error e => .error e
            | .ok (body, g4) => .ok (.NODE_IF condition body, advance g4)
/-- The statement loop of `parseProgram` (with `stop = TOKEN_EOF`) and of
`parseIfStatement` (with `stop = TOKEN_RBRACE`):
`while (currentToken.type != stop) { stmt = parseStatement(f); ... }`,
yielding the statements chained from `head`. -/
def parseStatements (stop : TokenType) : Nat → Globals → Result (List ASTNode)
  | 0, g => .error (.outOfFuel, g)
  | fuel + 1, g =>
    if g.currentToken.type ≠ stop then
      match parseStatement fuel g with
      | .error e => .error e
      | .ok (stmt, g1) =>
        match parseStatements stop fuel g1 with
        | .error e => .error e
        | .ok (rest, g2) => .ok (stmt :: rest, g2)
    else .ok ([], g)
end

/-- The function `parseProgram`. -/
def parseProgram (fuel : Nat) (g : Globals) : Result ASTNode :=
  match parseStatements .TOKEN_EOF fuel g with
  | .error e => .error e
  | .ok (body, g1) => .ok (.NODE_PROGRAM body, g1)

/-! ## parser.c: code generator -/

/-- One `fprintf(asmFile, ...)` of an instruction line. -/
def emit (g : Globals) (i : Instr) : Globals :=
  { g with asmFile := g.asmFile ++ [i] }

/-- The function `generateExpression`. -/
def generateExpression : ASTNode → Globals → Globals
  | .NODE_NUM value, g => emit g (.LOADI value)
  | .NODE_VAR name, g => emit g (.LOAD (lookupSymbol g.symbolTable name))
  | .NODE_BINOP op left right, g =>
    let g1 := emit (generateExpression left g) .PUSH
    let g2 := emit (generateExpression right g1) .POP
    if op = '+' then emit g2 .ADD else emit g2 .SUB
  | _, g => g

mutual
/-- The function `generateStatement`. -/
def generateStatement : ASTNode → Globals → Except (Err × Globals) Globals
  | .NODE_DECL _, g => .ok g
  | .NODE_ASSIGN left right, g =>
    let addr := lookupSymbol g.symbolTable left.name
    .ok (emit (generateExpression right g) (.STORE addr))
  | .NODE_IF condition body, g =>
    let label := g.labelCounter
    let g1 := { g with labelCounter := g.labelCounter + 1 }
    match condition.left?, condition.right? with
    | some l, some r =>
      let g2 := emit g1 (.LOAD (lookupSymbol g1.symbolTable l.name))
      let g3 :=
        match r with
        | .NODE_NUM value => emit g2 (.CMPI value)
        | _ => emit g2 (.CMP (lookupSymbol g2.symbolTable r.name))
      match generateStatements body (emit g3 (.JNZ label)) with
      | .error e => .error e
      | .ok g4 => .ok (emit g4 (.LABEL label))
    | _, _ => .error (.nullDereference, g1)
  | _, g => .ok g
/-- The loop `while (stmt) { generateStatement(stmt); stmt = stmt->next; }` of
`generateCode` and `generateStatement`. -/
def generateStatements : List ASTNode → Globals → Except (Err × Globals) Globals
  | [], g => .ok g
  | stmt :: rest, g =>
    match generateStatement stmt g with
    | .error e => .error e
    | .ok g1 => generateStatements rest g1
end

/-- The function `generateCode`. -/
def generateCode : ASTNode → Globals → Except (Err × Globals) Globals
  | .NODE_PROGRAM body, g => generateStatements body g
  | _, g => .ok g

/-- The function `main` on the contents `src` of `input.txt`: the first
`advance`, `parseProgram`, then `generateCode`.  The result holds the symbol
table and, in `asmFile`, the instruction lines of `output.asm`. -/
def main (fuel : Nat) (src : List Char) : Except (Err × Globals) Globals :=
  match parseProgram fuel (advance (initGlobals src)) with
  | .error e => .error e
  | .ok (ast, g) => generateCode ast g

/-- The globals a function of `parser.c` ends with, whether it returned or
exited through `error`. -/
def finalGlobals {α : Type} : Result α → Globals
  | .ok (_, g) => g
  | .error (_, g) => g

/-- Whether a run of the model stopped at its recursion bound. -/
def ranOut {α : Type} : Except (Err × Globals) α → Bool
  | .error e => decide (e.1 = .outOfFuel)
  | .ok _ => false

/-! ## The accumulator machine -/

/-- Modelled from the spec: the accumulator machine of the glossary, which is
not part of the repository: primary register `A`, secondary register `B`, a
push/pop save area and address-addressed memory. -/
structure Machine where
  A : Int
  B : Int
  saved : List Int
  mem : Int → Int

/-- Modelled from the spec: the effect of one instruction of an expression.
`LOADI A,v` loads the literal, `LOAD A,a` loads the value at address `a`,
`STORE A,a` stores `A` there, `PUSH A` saves `A`, `POP B` restores the value
saved last into `B`, `ADD A,B` and `SUB A,B` leave `A + B` and `A - B` in
`A`.  A comparison and a jump are not run (`none`): the specification gives
the form `CMP A,<int-or-hex-addr>` and not what the machine does with the
operand.  A `POP B` with nothing saved is `none` as well. -/
def Machine.step (m : Machine) : Instr → Option Machine
  | .LOADI v => some { m with A := v }
  | .LOAD a => some { m with A := m.mem a }
  | .STORE a => some { m with mem := fun x => if x = a then m.A else m.mem x }
  | .PUSH => some { m with saved := m.A :: m.saved }
  | .POP =>
    match m.saved with
    | v :: s => some { m with B := v, saved := s }
    | [] => none
  | .ADD => some { m with A := m.A + m.B }
  | .SUB => some { m with A := m.A - m.B }
  | .CMPI _ => none
  | .CMP _ => none
  | .JNZ _ => none
  | .LABEL _ => some m

/-- Modelled from the spec: running the instruction sequence of an
expression. -/
def Machine.run : Machine → List Instr → Option Machine
  | m, [] => some m
  | m, i :: rest =>
    match m.step i with
    | some m1 => m1.run rest
    | none => none

/-- The value a term node denotes in a machine state: the literal, or the
content of the variable's address. -/
def termValue (table : List Symbol) (m : Machine) : ASTNode → Int
  | .NODE_NUM v => v
  | .NODE_VAR name => m.mem (lookupSymbol table name)
  | _ => 0

/-! ## Shapes of parsed trees -/

/-- A node built by `parseTerm`: a `Var` or a `Num`. -/
def isTerm : ASTNode → Bool
  | .NODE_VAR _ => true
  | .NODE_NUM _ => true
  | _ => false

/-- A node built by `parseExpression`: a term, or a `BinOp` of two terms. -/
def isExpression : ASTNode → Bool
  | .NODE_BINOP _ l r => isTerm l && isTerm r
  | n => isTerm n

/-- A node built by `parseCondition`: an equality `BinOp` of a `Var` and a
term. -/
def isCondition : ASTNode → Bool
  | .NODE_BINOP op (.NODE_VAR _) r => decide (op = '=') && isTerm r
  | _ => false

mutual
/-- A node built by `parseStatement`. -/
def isStatement : ASTNode → Bool
  | .NODE_DECL _ => true
  | .NODE_ASSIGN (.NODE_VAR _) e => isExpression e
  | .NODE_IF c body => isCondition c && isStatementList body
  | _ => false
/-- A statement chain built by the statement loop. -/
def isStatementList : List ASTNode → Bool
  | [] => true
  | s :: rest => isStatement s && isStatementList rest
end

/-- A node built by `parseProgram`. -/
def isProgram : ASTNode → Bool
  | .NODE_PROGRAM body => isStatementList body
  | _ => false

mutual
/-- The number of `If` nodes in a tree. -/
def countIf : ASTNode → Nat
  | .NODE_PROGRAM body => countIfList body
  | .NODE_DECL _ => 0
  | .NODE_ASSIGN l r => countIf l + countIf r
  | .NODE_BINOP _ l r => countIf l + countIf r
  | .NODE_IF c body => 1 + countIf c + countIfList body
  | .NODE_VAR _ => 0
  | .NODE_NUM _ => 0
/-- The number of `If` nodes in a statement chain. -/
def countIfList : List ASTNode → Nat
  | [] => 0
  | s :: rest => countIf s + countIfList rest
end

mutual
/-- The names of the `Decl` nodes of a tree, in source order. -/
def declNames : ASTNode → List (List Char)
  | .NODE_PROGRAM body => declNamesList body
  | .NODE_DECL name => [name]
  | .NODE_IF _ body => declNamesList body
  | _ => []
/-- The names of the `Decl` nodes of a statement chain, in source order. -/
def declNamesList : List ASTNode → List (List Char)
  | [] => []
  | s :: rest => declNames s ++ declNamesList rest
end

/-- The entries `addSymbol` makes for `names` at consecutive addresses from
`base`. -/
def allocate : Int → List (List Char) → List Symbol
  | _, [] => []
  | base, n :: ns => ⟨storedName n base, base⟩ :: allocate (base + 1) ns

/-- The address invariant of the symbol table: entry `i` has address
`MEMORY_START + i` and `nextMemoryAddress = MEMORY_START + symbolCount`. -/
def AddrInv (g : Globals) : Prop :=
  (∀ i : Fin g.symbolTable.length,
      (g.symbolTable.get i).memory_address = MEMORY_START + (i : Nat)) ∧
    g.nextMemoryAddress = MEMORY_START + (symbolCount g : Nat)

instance (g : Globals) : Decidable (AddrInv g) :=
  inferInstanceAs (Decidable ((∀ i : Fin g.symbolTable.length,
      (g.symbolTable.get i).memory_address = MEMORY_START + (i : Nat)) ∧
    g.nextMemoryAddress = MEMORY_START + (symbolCount g : Nat)))

/-- The labels of the `JNZ` instructions of a stream, in order. -/
def jnzLabels : List Instr → List Nat
  | [] => []
  | .JNZ l :: rest => l :: jnzLabels rest
  | _ :: rest => jnzLabels rest

/-- The labels defined in a stream, in order. -/
def labelDefs : List Instr → List Nat
  | [] => []
  | .LABEL l :: rest => l :: labelDefs rest
  | _ :: rest => labelDefs rest

/-! ## The instruction groups of the specification -/

/-- The instructions of an expression: literal load, variable load, or left
operand, save, right operand, restore, combine. -/
def exprCode (table : List Symbol) : ASTNode → List Instr
  | .NODE_NUM value => [.LOADI value]
  | .NODE_VAR name => [.LOAD (lookupSymbol table name)]
  | .NODE_BINOP op l r =>
    exprCode table l ++ [.PUSH] ++ exprCode table r ++ [.POP] ++
      [if op = '+' then .ADD else .SUB]
  | _ => []

/-- The comparison of a condition against its right operand: a literal for a
number, the operand's address for a variable. -/
def cmpCode (table : List Symbol) : ASTNode → Instr
  | .NODE_NUM value => .CMPI value
  | r => .CMP (lookupSymbol table r.name)

mutual
/-- The instruction group of one statement as the specification words it,
for the statement reached with label counter `label`: nothing for a `Decl`;
the expression and one store for an `Assign`; load, compare, jump, the groups
of the body and the label for an `If`. -/
def stmtGroup (table : List Symbol) : ASTNode → Nat → List Instr
  | .NODE_DECL _, _ => []
  | .NODE_ASSIGN target e, _ =>
    exprCode table e ++ [.STORE (lookupSymbol table target.name)]
  | .NODE_IF (.NODE_BINOP _ l r) body, label =>
    [.LOAD (lookupSymbol table l.name), cmpCode table r, .JNZ label] ++
      stmtGroups table body (label + 1) ++ [.LABEL label]
  | _, _ => []
/-- The concatenation of the groups of a statement chain, in source order. -/
def stmtGroups (table : List Symbol) : List ASTNode → Nat → List Instr
  | [], _ => []
  | s :: rest, label =>
    stmtGroup table s label ++ stmtGroups table rest (label + countIf s)
end

mutual
/-- The names a tree uses as assignment target or as term: the `Var` nodes of
assignments and expressions and of the right operand of each condition (the
left operand of a condition is left out). -/
def usedNames : ASTNode → List (List Char)
  | .NODE_PROGRAM body => usedNamesList body
  | .NODE_DECL _ => []
  | .NODE_ASSIGN l r => usedNames l ++ usedNames r
  | .NODE_BINOP _ l r => usedNames l ++ usedNames r
  | .NODE_IF (.NODE_BINOP _ _ r) body => usedNames r ++ usedNamesList body
  | .NODE_IF _ body => usedNamesList body
  | .NODE_VAR name => [name]
  | .NODE_NUM _ => []
/-- The names used in a statement chain. -/
def usedNamesList : List ASTNode → List (List Char)
  | [] => []
  | s :: rest => usedNames s ++ usedNamesList rest
end

/-! ## Relations between globals -/

/-- The globals `g1` are `g` with the names `names` declared, in order, at
consecutive addresses from `nextMemoryAddress`. -/
def Declared (g : Globals) (names : List (List Char)) (g1 : Globals) : Prop :=
  g1.symbolTable = g.symbolTable ++ allocate g.nextMemoryAddress names ∧
    g1.nextMemoryAddress = g.nextMemoryAddress + (names.length : Nat)

instance (g : Globals) (names : List (List Char)) (g1 : Globals) :
    Decidable (Declared g names g1) :=
  inferInstanceAs (Decidable (_ ∧ _))

/-- The globals with `out` appended to the output and the label counter
advanced by `n`. -/
def withOutput (g : Globals) (out : List Instr) (n : Nat) : Globals :=
  { g with asmFile := g.asmFile ++ out, labelCounter := g.labelCounter + n }

/-! ## Example inputs -/

/-- The source text of the example of the specification. -/
def exampleSource : List Char :=
  "int x; x = 5; if (x == 5) \x7b x = x + 1; \x7d".toList

/-- The source text `int x; x = 5 - 3;`. -/
def subtractionSource : List Char := "int x; x = 5 - 3;".toList

/-- The source text `if (y == 1) { }`, in which `y` is never declared. -/
def undeclaredConditionSource : List Char := "if (y == 1) \x7b \x7d".toList

/-- The tree `parseProgram` returns for `exampleSource`. -/
def exampleTree : ASTNode :=
  .NODE_PROGRAM [.NODE_DECL ['x'],
    .NODE_ASSIGN (.NODE_VAR ['x']) (.NODE_NUM 5),
    .NODE_IF (.NODE_BINOP '=' (.NODE_VAR ['x']) (.NODE_NUM 5))
      [.NODE_ASSIGN (.NODE_VAR ['x']) (.NODE_BINOP '+' (.NODE_VAR ['x']) (.NODE_NUM 1))]]

/-- The globals `parseProgram` ends with on `exampleSource`. -/
def exampleParsed : Globals :=
  { file := [], currentToken := ⟨.TOKEN_EOF, []⟩, symbolTable := [⟨['x'], 0x10⟩],
    nextMemoryAddress := 0x11, labelCounter := 0, asmFile := [] }

/-- The tokens that repeated calls of `getNextToken` return before the
end-of-input token, for at most `n` calls. -/
def tokenizeFuel : Nat → List Char → List Token
  | 0, _ => []
  | n + 1, s =>
    if (getNextToken s).1.type = .TOKEN_EOF then []
    else (getNextToken s).1 :: tokenizeFuel n (getNextToken s).2

/-- The tokens that repeated calls of `getNextToken` return on the input `s`
before the end-of-input token (every such token consumes a character, so
`s.length` calls are enough). -/
def tokenize (s : List Char) : List Token := tokenizeFuel s.length s

/-- The length of the longest run of letters and digits in the input, `cur`
being the length of the run that ends where the input starts. -/
def longestRunFrom : Nat → List Char → Nat
  | cur, [] => cur
  | cur, c :: s =>
    if isalnum c then longestRunFrom (cur + 1) s else max cur (longestRunFrom 0 s)

/-- The length of the longest run of letters and digits in the input. -/
def longestRun (s : List Char) : Nat := longestRunFrom 0 s

/-- The tokens the parser has still to look at: the current one, unless it is
the end-of-input token, and those of the unread input. -/
def remainingTokens (g : Globals) : Nat :=
  (if g.currentToken.type = .TOKEN_EOF then 0 else 1) + (tokenize g.file).length

mutual
/-- The nesting depth of the `If` nodes of a tree. -/
def ifDepth : ASTNode → Nat
  | .NODE_PROGRAM body => ifDepthList body
  | .NODE_IF _ body => 1 + ifDepthList body
  | _ => 0
/-- The largest nesting depth in a statement chain. -/
def ifDepthList : List ASTNode → Nat
  | [] => 0
  | s :: rest => max (ifDepth s) (ifDepthList rest)
end

/-- The input with its white space removed. -/
def stripSpace (s : List Char) : List Char := s.filter (fun c => !isspace c)

/-- The concatenation of the texts of the tokens of the input. -/
def tokenTexts (s : List Char) : List Char := ((tokenize s).map (fun t => t.text)).flatten

/-- An input with a NUL byte between two letters. -/
def nulSource : List Char := ['a', Char.ofNat 0, 'b']

/-- The source text `int x1; x1 = 42; if (x1 == 42) { x1 = x1 - 1; }` over two
lines. -/
def spacedSource : List Char :=
  "int x1;  x1 = 42;\n\tif (x1 == 42) \x7b x1 = x1 - 1; \x7d".toList

/-! ## The capacity of the table -/

/-- The table invariant: the address invariant, and at most `MAX_SYMBOLS`
entries. -/
def TableBounded (g : Globals) : Prop :=
  AddrInv g ∧ symbolCount g ≤ MAX_SYMBOLS

instance (g : Globals) : Decidable (TableBounded g) :=
  inferInstanceAs (Decidable (_ ∧ _))

/-- The source text `if (5 == 5) { }`: a number where the grammar has the
identifier of a condition. -/
def numberConditionSource : List Char := "if (5 == 5) \x7b \x7d".toList

/-- The source text `if (int == 5) { }`: a keyword where the grammar has the
identifier of a condition. -/
def keywordConditionSource : List Char := "if (int == 5) \x7b \x7d".toList

mutual
/-- The right-hand sides of the assignments of a tree, in source order. -/
def expressionsOf : ASTNode → List ASTNode
  | .NODE_PROGRAM body => expressionsOfList body
  | .NODE_ASSIGN _ r => [r]
  | .NODE_IF _ body => expressionsOfList body
  | _ => []
/-- The right-hand sides of the assignments of a statement chain. -/
def expressionsOfList : List ASTNode → List ASTNode
  | [] => []
  | s :: rest => expressionsOf s ++ expressionsOfList rest
end

/-- The globals after `int x;` with ` = 1 + 2 - 3;` still unread and `x` the
current token. -/
def chainGlobals : Globals :=
  { file := " = 1 + 2 - 3;".toList
    currentToken := ⟨.TOKEN_IDENTIFIER, ['x']⟩
    symbolTable := [⟨['x'], 0x10⟩]
    nextMemoryAddress := 0x11
    labelCounter := 0
    asmFile := [] }

/-- No two entries of the table share a name. -/
def UniqueNames (g : Globals) : Prop := (g.symbolTable.map (fun s => s.name)).Nodup

instance (g : Globals) : Decidable (UniqueNames g) :=
  inferInstanceAs (Decidable (List.Nodup _))

/-- The invariant of the names: the table invariant, pairwise distinct stored
names, and every stored name of 32 or more characters ends in the byte of its
entry's address (what `storedName` makes of a long name). -/
def NamesInv (g : Globals) : Prop :=
  TableBounded g ∧ UniqueNames g ∧
    ∀ s ∈ g.symbolTable, NAME_LEN ≤ s.name.length →
      s.name.getLast? = some (Char.ofNat s.memory_address.toNat)

/-- A name of 32 letters. -/
def longName : List Char := List.replicate 32 'a'

/-- The source text `int x; if (x == 1) { int aa..a; } aa..a = 2;` with the
name of 32 letters. -/
def longFlatScopeSource : List Char :=
  "int x; if (x == 1) \x7b int ".toList ++ longName ++ "; \x7d ".toList ++ longName ++
    " = 2;".toList

/-- The source text `int aa..a; int aa..a;` with the name of 32 letters. -/
def longRedeclaredSource : List Char :=
  "int ".toList ++ longName ++ "; int ".toList ++ longName ++ ";".toList

/-- The source text `int x; if (x == 1) { int y; } y = 2;`. -/
def flatScopeSource : List Char :=
  "int x; if (x == 1) \x7b int y; \x7d y = 2;".toList

/-! ## The save area -/

/-- What an instruction adds to the depth of the save area: `PUSH A` one,
`POP B` minus one. -/
def pushDelta : Instr → Int
  | .PUSH => 1
  | .POP => -1
  | _ => 0

/-- The number of `PUSH A` minus the number of `POP B` in a stream. -/
def saveDepth (code : List Instr) : Int := (code.map pushDelta).sum

/-- One step of the check that every `PUSH A` is closed by a `POP B` before
any jump, label or further `PUSH A`; `pending` says that a `PUSH A` is open;
`none` is a violation (also a `POP B` with nothing open). -/
def saveStep (pending : Bool) : Instr → Option Bool
  | .PUSH => if pending then none else some true
  | .POP => if pending then some false else none
  | .JNZ _ => if pending then none else some false
  | .LABEL _ => if pending then none else some false
  | _ => some pending

/-- The check along a stream, from the state `pending`. -/
def saveScan : Bool → List Instr → Option Bool
  | pending, [] => some pending
  | pending, i :: rest =>
    match saveStep pending i with
    | some p => saveScan p rest
    | none => none

theorem parseStatement_zero (g : Globals) : parseStatement 0 g = .error (.outOfFuel, g) := by
  rw [parseStatement]

theorem parseStatement_succ (fuel : Nat) (g : Globals) :
    parseStatement (fuel + 1) g =
      if g.currentToken.type = .TOKEN_INT then parseDeclaration g
      else if g.currentToken.type = .TOKEN_IDENTIFIER then parseAssignment g
      else if g.currentToken.type = .TOKEN_IF then parseIfStatement fuel g
      else .error (.unknownStatement, g) := by
  rw [parseStatement]

theorem parseIfStatement_zero (g : Globals) : parseIfStatement 0 g = .error (.outOfFuel, g) := by
  rw [parseIfStatement]

theorem parseIfStatement_succ (fuel : Nat) (g : Globals) :
    parseIfStatement (fuel + 1) g =
      if (advance g).currentToken.type ≠ .TOKEN_LPAREN then .error (.expectedLParen, advance g)
      else
        match parseCondition (advance (advance g)) with
        | .error e => .error e
        | .ok (condition, g2) =>
          if g2.currentToken.type ≠ .TOKEN_RPAREN then .error (.expectedRParen, g2)
          else if (advance g2).currentToken.type ≠ .TOKEN_LBRACE then
            .error (.expectedLBrace, advance g2)
          else
            match parseStatements .TOKEN_RBRACE fuel (advance (advance g2)) with
            | .error e => .error e
            | .ok (body, g4) => .ok (.NODE_IF condition body, advance g4) := by
  rw [parseIfStatement]

theorem parseStatements_zero (stop : TokenType) (g : Globals) :
    parseStatements stop 0 g = .error (.outOfFuel, g) := by
  rw [parseStatements]

theorem parseStatements_succ (stop : TokenType) (fuel : Nat) (g : Globals) :
    parseStatements stop (fuel + 1) g =
      if g.currentToken.type ≠ stop then
        match parseStatement fuel g with
        | .error e => .error e
        | .ok (stmt, g1) =>
          match parseStatements stop fuel g1 with
          | .error e => .error e
          | .ok (rest, g2) => .ok (stmt :: rest, g2)
      else .ok ([], g) := by
  rw [parseStatements]

theorem parse_fuel_succ (fuel : Nat) :
    (∀ g, ranOut (parseStatement fuel g) = false →
      parseStatement (fuel + 1) g = parseStatement fuel g) ∧
    (∀ g, ranOut (parseIfStatement fuel g) = false →
      parseIfStatement (fuel + 1) g = parseIfStatement fuel g) ∧
    (∀ stop g, ranOut (parseStatements stop fuel g) = false →
      parseStatements stop (fuel + 1) g = parseStatements stop fuel g) := by
  induction fuel with
  | zero => 
    refine ⟨?_, ?_, ?_⟩ <;> intros <;> simp_all [parseStatement_zero, parseIfStatement_zero, parseStatements_zero, ranOut]
  | succ n ih =>
    obtain ⟨ihS, ihI, ihL⟩ := ih
    refine ⟨?_, ?_, ?_⟩
    · intro g h
      rw [parseStatement_succ (n + 1), parseStatement_succ n]
      rw [parseStatement_succ n] at h
      split_ifs at h ⊢ <;> first | rfl | exact ihI g h
    · intro g h
      rw [parseIfStatement_succ (n + 1), parseIfStatement_succ n]
      rw [parseIfStatement_succ n] at h
      split_ifs at h ⊢
      · rfl
      · cases hc : parseCondition (advance (advance g)) with
        | error e => rfl
        | ok v =>
          obtain ⟨c, g2⟩ := v
          simp only [hc] at h ⊢
          split_ifs at h ⊢
          · rfl
          · rfl
          · cases hb : parseStatements .TOKEN_RBRACE n (advance (advance g2)) with
            | error e => 
              simp only [hb] at h
              rw [ihL _ _ (by rw [hb]; simpa [ranOut] using h), hb]
            | ok v => 
              rw [ihL _ _ (by rw [hb]; rfl), hb]
    · intro stop g h
      rw [parseStatements_succ stop (n + 1), parseStatements_succ stop n]
      rw [parseStatements_succ stop n] at h
      split_ifs at h ⊢
      · cases hs : parseStatement n g with
        | error e =>
          simp only [hs] at h
          rw [ihS _ (by rw [hs]; simpa [ranOut] using h), hs]
        | ok v =>
          obtain ⟨s, g1⟩ := v
          simp only [hs] at h
          rw [ihS _ (by rw [hs]; rfl), hs]
          simp only []
          cases hb : parseStatements stop n g1 with
          | error e =>
            simp only [hb] at h
            rw [ihL _ _ (by rw [hb]; simpa [ranOut] using h), hb]
          | ok v =>
            rw [ihL _ _ (by rw [hb]; rfl), hb]
      · rfl


/-- More fuel does not change a statement loop that did not run out. -/
theorem parseStatements_fuel_add (stop : TokenType) (k fuel : Nat) (g : Globals)
    (h : ranOut (parseStatements stop fuel g) = false) :
    parseStatements stop (fuel + k) g = parseStatements stop fuel g := by
  induction k with
  | zero => rfl
  | succ k ih =>
    rw [← Nat.add_assoc, (parse_fuel_succ (fuel + k)).2.2 stop g (by rw [ih]; exact h), ih]

/-- A compilation that succeeds does so with any larger recursion bound, with
the same result. -/
theorem main_fuel_add (k fuel : Nat) (src : List Char) (G : Globals)
    (h : main fuel src = .ok G) : main (fuel + k) src = .ok G := by
  unfold main parseProgram at h ⊢
  cases hp : parseStatements .TOKEN_EOF fuel (advance (initGlobals src)) with
  | error e => simp [hp] at h
  | ok v =>
    rw [parseStatements_fuel_add _ k fuel _ (by rw [hp]; rfl), hp]
    rw [hp] at h
    exact h

/-! ## C1: the worked example -/

/-- C1: compiling `int x; x = 5; if (x == 5) { x = x + 1; }` from the initial
globals succeeds (for every recursion bound from 7 on), leaves the symbol
table as exactly `x -> 0x10`, and emits exactly the twelve instructions of the
specification, in order; the last conjunct gives the lines as printed. -/
theorem example_compiles (fuel : Nat) :
    main (fuel + 7) exampleSource =
      .ok { file := []
            currentToken := ⟨.TOKEN_EOF, []⟩
            symbolTable := [⟨['x'], 0x10⟩]
            nextMemoryAddress := 0x11
            labelCounter := 1
            asmFile := [.LOADI 5, .STORE 0x10, .LOAD 0x10, .CMPI 5, .JNZ 0, .LOAD 0x10,
              .PUSH, .LOADI 1, .POP, .ADD, .STORE 0x10, .LABEL 0] } ∧
    [Instr.LOADI 5, .STORE 0x10, .LOAD 0x10, .CMPI 5, .JNZ 0, .LOAD 0x10,
        .PUSH, .LOADI 1, .POP, .ADD, .STORE 0x10, .LABEL 0].map Instr.render =
      ["LOADI A, 5", "STORE A, 0x10", "LOAD A, 0x10", "CMP A, 5", "JNZ if_end_0",
        "LOAD A, 0x10", "PUSH A", "LOADI A, 1", "POP B", "ADD A, B", "STORE A, 0x10",
        "if_end_0:"] := by
  refine ⟨?_, by decide⟩
  rw [Nat.add_comm]
  exact main_fuel_add fuel 7 exampleSource _ rfl

/-! ## Number literals -/

/-- The call `atoi` on number tokens: a value that fits an `int` is kept,
`2^31` becomes `-2^31`, `2^32` becomes `0`, and from `2^63` on the result is
`-1`. -/
theorem atoi_int_range :
    atoi "2147483647".toList = 2147483647 ∧
    atoi "2147483648".toList = -2147483648 ∧
    atoi "4294967296".toList = 0 ∧
    atoi "9223372036854775807".toList = -1 ∧
    atoi "99999999999999999999".toList = -1 ∧
    atoi "00012".toList = 12 := by
  decide

/-! ## Code generation of expressions -/

/-- The function `generateExpression` appends `exprCode` to the output and
changes nothing else. -/
theorem generateExpression_eq : ∀ (e : ASTNode) (g : Globals),
    generateExpression e g = { g with asmFile := g.asmFile ++ exprCode g.symbolTable e }
  | .NODE_BINOP op l r, g => by
    rw [generateExpression, generateExpression_eq l]
    simp only [emit, generateExpression_eq r, exprCode]
    split_ifs <;> simp
  | .NODE_NUM v, g => by simp [generateExpression, exprCode, emit]
  | .NODE_VAR n, g => by simp [generateExpression, exprCode, emit]
  | .NODE_PROGRAM b, g => by simp [generateExpression, exprCode]
  | .NODE_DECL n, g => by simp [generateExpression, exprCode]
  | .NODE_ASSIGN l r, g => by simp [generateExpression, exprCode]
  | .NODE_IF c b, g => by simp [generateExpression, exprCode]

theorem run_append (m : Machine) (xs ys : List Instr) :
    m.run (xs ++ ys) = (m.run xs).bind (fun m1 => m1.run ys) := by
  induction xs generalizing m with
  | nil => rfl
  | cons i rest ih =>
    simp only [List.cons_append, Machine.run]
    cases m.step i with
    | none => rfl
    | some m1 => exact ih m1

/-- Running the code of a term loads its value into `A` and changes nothing
else. -/
theorem run_term (table : List Symbol) (m : Machine) (t : ASTNode) (ht : isTerm t = true) :
    m.run (exprCode table t) = some { m with A := termValue table m t } := by
  cases t <;> simp_all [isTerm, exprCode, Machine.run, Machine.step, termValue]

/-- The code generated for `l - r` leaves `value(r) - value(l)` in `A`. -/
theorem run_subtraction (table : List Symbol) (m : Machine) (op : Char) (l r : ASTNode)
    (hl : isTerm l = true) (hr : isTerm r = true) (hop : op ≠ '+') :
    (m.run (exprCode table (.NODE_BINOP op l r))).map (fun m1 => m1.A) =
      some (termValue table m r - termValue table m l) := by
  have hr2 : termValue table { m with A := termValue table m l, saved := termValue table m l :: m.saved } r = termValue table m r := by
    cases r <;> simp_all [isTerm, termValue]
  simp only [exprCode, run_append, run_term table _ _ hl, run_term table _ _ hr, Option.bind, Machine.run, Machine.step, hop, if_false, Option.map, hr2]

/-- C2 (the code computes the reverse): compiling `int x; x = 5 - 3;` emits
`LOADI A,5 / PUSH A / LOADI A,3 / POP B / SUB A,B / STORE A,0x10`, and on the
accumulator machine this leaves `3 - 5 = -2` in `A` and in `x`. -/
theorem subtraction_example :
    (main 3 subtractionSource).toOption.map (fun g => g.asmFile) =
      some [.LOADI 5, .PUSH, .LOADI 3, .POP, .SUB, .STORE 0x10] ∧
    ∀ m : Machine,
      (m.run [.LOADI 5, .PUSH, .LOADI 3, .POP, .SUB, .STORE 0x10]).map
        (fun m1 => (m1.A, m1.mem 0x10)) = some (-2, -2) := by
  refine ⟨rfl, fun m => ?_⟩
  simp [Machine.run, Machine.step]

/-! ## Invariants of the parser -/

theorem advance_symbolTable (g : Globals) : (advance g).symbolTable = g.symbolTable := rfl

/-- A property of the globals that `advance` and a successful `addSymbol`
keep is kept by `parseTerm`, whether it returns or exits. -/
theorem parseTerm_preserves (P : Globals → Prop) (hadv : ∀ g, P g → P (advance g))
    (g : Globals) (h : P g) : P (finalGlobals (parseTerm g)) := by
  unfold parseTerm
  split_ifs <;> simp only [finalGlobals] <;> first | exact h | exact hadv g h

theorem parseExpression_preserves (P : Globals → Prop) (hadv : ∀ g, P g → P (advance g))
    (g : Globals) (h : P g) : P (finalGlobals (parseExpression g)) := by
  have h1 := parseTerm_preserves P hadv g h
  unfold parseExpression
  cases ht : parseTerm g with
  | error e => rw [ht] at h1; exact h1
  | ok v =>
    obtain ⟨l, g1⟩ := v
    rw [ht] at h1
    simp only [finalGlobals] at h1
    simp only []
    split_ifs
    · have h2 := parseTerm_preserves P hadv (advance g1) (hadv g1 h1)
      cases ht2 : parseTerm (advance g1) with
      | error e => rw [ht2] at h2; exact h2
      | ok v => rw [ht2] at h2; exact h2
    · exact h1

theorem parseCondition_preserves (P : Globals → Prop) (hadv : ∀ g, P g → P (advance g))
    (g : Globals) (h : P g) : P (finalGlobals (parseCondition g)) := by
  unfold parseCondition
  simp only []
  split_ifs
  · exact hadv g h
  · have h2 := parseTerm_preserves P hadv (advance (advance g)) (hadv _ (hadv g h))
    cases ht2 : parseTerm (advance (advance g)) with
    | error e => rw [ht2] at h2; exact h2
    | ok v => rw [ht2] at h2; exact h2

theorem parseDeclaration_preserves (P : Globals → Prop) (hadv : ∀ g, P g → P (advance g))
    (hadd : ∀ g n g1, P g → addSymbol g n = .ok g1 → P g1)
    (g : Globals) (h : P g) : P (finalGlobals (parseDeclaration g)) := by
  unfold parseDeclaration
  simp only []
  split_ifs
  · exact hadv g h
  · cases ha : addSymbol (advance g) (advance g).currentToken.text with
    | error e =>
      have : e.2 = advance g := by
        unfold addSymbol at ha
        split_ifs at ha <;> cases ha <;> rfl
      simp only [finalGlobals, this]
      exact hadv g h
    | ok g2 =>
      have h2 := hadd _ _ _ (hadv g h) ha
      simp only []
      split_ifs
      · exact hadv g2 h2
      · exact hadv _ (hadv g2 h2)

theorem parseAssignment_preserves (P : Globals → Prop) (hadv : ∀ g, P g → P (advance g))
    (g : Globals) (h : P g) : P (finalGlobals (parseAssignment g)) := by
  unfold parseAssignment
  simp only []
  split_ifs
  · exact h
  · exact hadv g h
  · have h2 := parseExpression_preserves P hadv (advance (advance g)) (hadv _ (hadv g h))
    cases he : parseExpression (advance (advance g)) with
    | error e => rw [he] at h2; exact h2
    | ok v =>
      obtain ⟨e, g2⟩ := v
      rw [he] at h2
      simp only []
      split_ifs
      · exact h2
      · exact hadv g2 h2

/-- A property of the globals that `advance` and a successful `addSymbol`
keep is kept by every parser function, whether it returns or exits. -/
theorem parse_preserves (P : Globals → Prop) (hadv : ∀ g, P g → P (advance g))
    (hadd : ∀ g n g1, P g → addSymbol g n = .ok g1 → P g1) (fuel : Nat) :
    (∀ g, P g → P (finalGlobals (parseStatement fuel g))) ∧
    (∀ g, P g → P (finalGlobals (parseIfStatement fuel g))) ∧
    (∀ stop g, P g → P (finalGlobals (parseStatements stop fuel g))) := by
  induction fuel with
  | zero =>
    refine ⟨?_, ?_, ?_⟩ <;> intros <;>
      simp only [parseStatement_zero, parseIfStatement_zero, parseStatements_zero,
        finalGlobals] <;> assumption
  | succ n ih =>
    obtain ⟨ihS, ihI, ihL⟩ := ih
    refine ⟨?_, ?_, ?_⟩
    · intro g h
      rw [parseStatement_succ]
      split_ifs
      · exact parseDeclaration_preserves P hadv hadd g h
      · exact parseAssignment_preserves P hadv g h
      · exact ihI g h
      · exact h
    · intro g h
      rw [parseIfStatement_succ]
      split_ifs
      · exact hadv g h
      · have h2 := parseCondition_preserves P hadv (advance (advance g)) (hadv _ (hadv g h))
        cases hc : parseCondition (advance (advance g)) with
        | error e => rw [hc] at h2; exact h2
        | ok v =>
          obtain ⟨c, g2⟩ := v
          rw [hc] at h2
          simp only [finalGlobals] at h2
          simp only []
          split_ifs
          · exact h2
          · exact hadv g2 h2
          · have h3 := ihL .TOKEN_RBRACE (advance (advance g2)) (hadv _ (hadv g2 h2))
            cases hb : parseStatements .TOKEN_RBRACE n (advance (advance g2)) with
            | error e => rw [hb] at h3; exact h3
            | ok v =>
              rw [hb] at h3
              exact hadv _ h3
    · intro stop g h
      rw [parseStatements_succ]
      split_ifs
      · have h2 := ihS g h
        cases hs : parseStatement n g with
        | error e => rw [hs] at h2; exact h2
        | ok v =>
          obtain ⟨s, g1⟩ := v
          rw [hs] at h2
          have h3 := ihL stop g1 h2
          simp only []
          cases hb : parseStatements stop n g1 with
          | error e => rw [hb] at h3; exact h3
          | ok v => rw [hb] at h3; exact h3
      · exact h

/-- The parser never writes to the output nor touches the label counter. -/
theorem parseProgram_keeps_output (fuel : Nat) (g : Globals) :
    (finalGlobals (parseProgram fuel g)).asmFile = g.asmFile ∧
    (finalGlobals (parseProgram fuel g)).labelCounter = g.labelCounter := by
  have h := (parse_preserves
    (fun g1 => g1.asmFile = g.asmFile ∧ g1.labelCounter = g.labelCounter)
    (fun g1 h1 => h1)
    (fun g1 n g2 h1 ha => by
      unfold addSymbol at ha
      split_ifs at ha
      cases ha
      exact h1) fuel).2.2 .TOKEN_EOF g ⟨rfl, rfl⟩
  unfold parseProgram
  cases hp : parseStatements .TOKEN_EOF fuel g with
  | error e => rw [hp] at h; exact h
  | ok v => rw [hp] at h; exact h

/-! ## C4: the left operand of a condition is not looked up -/

/-- C4 (the code accepts the program): `if (y == 1) { }` with `y` never
declared is accepted by the parser, and the code generator prints
`LOAD A, 0xFFFFFFFF` for the failed lookup. -/
theorem undeclared_condition_operand_accepted :
    main 4 undeclaredConditionSource =
      .ok { file := [], currentToken := ⟨.TOKEN_EOF, []⟩, symbolTable := [],
            nextMemoryAddress := 0x10, labelCounter := 1,
            asmFile := [.LOAD (-1), .CMPI 1, .JNZ 0, .LABEL 0] } ∧
    [Instr.LOAD (-1), .CMPI 1, .JNZ 0, .LABEL 0].map Instr.render =
      ["LOAD A, 0xFFFFFFFF", "CMP A, 1", "JNZ if_end_0", "if_end_0:"] :=
  ⟨rfl, by decide⟩

/-! ## C6: redeclaration -/

theorem lookupSymbol_of_mem (table : List Symbol) (n : List Char)
    (hmem : ∃ s ∈ table, s.name = n) (haddr : ∀ s ∈ table, s.memory_address ≠ -1) :
    lookupSymbol table n ≠ -1 := by
  induction table with
  | nil => simp at hmem
  | cons s rest ih =>
    unfold lookupSymbol
    split_ifs with hs
    · exact haddr s (List.mem_cons_self _ _)
    · apply ih
      · obtain ⟨t, ht, hn⟩ := hmem
        rcases List.mem_cons.1 ht with rfl | ht
        · exact absurd hn hs
        · exact ⟨t, ht, hn⟩
      · exact fun t ht => haddr t (List.mem_cons_of_mem _ ht)

/-- Under the address invariant no entry carries the address `-1`. -/
theorem AddrInv.ne_notFound (g : Globals) (h : AddrInv g) :
    ∀ s ∈ g.symbolTable, s.memory_address ≠ -1 := by
  intro s hs
  obtain ⟨i, rfl⟩ := List.get_of_mem hs
  rw [h.1 i]
  simp only [MEMORY_START]
  omega

theorem lookupSymbol_eq_notFound (table : List Symbol) (n : List Char)
    (haddr : ∀ s ∈ table, s.memory_address ≠ -1) (h : lookupSymbol table n = -1) :
    ∀ s ∈ table, s.name ≠ n := by
  intro s hs hn
  exact lookupSymbol_of_mem table n ⟨s, hs, hn⟩ haddr h

theorem lookupSymbol_append_new (table : List Symbol) (s : Symbol) (n : List Char)
    (h : ∀ t ∈ table, t.name ≠ n) :
    lookupSymbol (table ++ [s]) n = if s.name = n then s.memory_address else -1 := by
  induction table with
  | nil => rfl
  | cons t rest ih =>
    rw [List.cons_append, lookupSymbol, if_neg (h t (List.mem_cons_self _ _))]
    exact ih (fun u hu => h u (List.mem_cons_of_mem _ hu))

theorem storedName_short (n : List Char) (a : Int) (h : n.length < NAME_LEN) :
    storedName n a = n := by
  rw [storedName, if_pos h]

theorem allocate_append (base : Int) (a b : List (List Char)) :
    allocate base (a ++ b) = allocate base a ++ allocate (base + (a.length : Nat)) b := by
  induction a generalizing base with
  | nil => simp [allocate]
  | cons n ns ih =>
    have hb : base + 1 + (ns.length : Nat) = base + ((ns.length + 1 : Nat) : Int) := by
      push_cast
      ring
    rw [List.cons_append, allocate, ih, allocate, List.length_cons, hb, List.cons_append]

theorem Declared.refl (g : Globals) : Declared g [] g := by
  simp [Declared, allocate]

theorem Declared.of_eq {g g1 : Globals} (h : g1.symbolTable = g.symbolTable ∧
    g1.nextMemoryAddress = g.nextMemoryAddress) : Declared g [] g1 := by
  simp [Declared, allocate, h.1, h.2]

theorem Declared.trans {g g1 g2 : Globals} {a b : List (List Char)}
    (h1 : Declared g a g1) (h2 : Declared g1 b g2) : Declared g (a ++ b) g2 := by
  obtain ⟨t1, n1⟩ := h1
  obtain ⟨t2, n2⟩ := h2
  refine ⟨?_, ?_⟩
  · rw [t2, t1, n1, allocate_append, List.append_assoc]
  · rw [n2, n1, List.length_append]
    push_cast
    ring

theorem addSymbol_ok (g g1 : Globals) (n : List Char) (h : addSymbol g n = .ok g1) :
    g1 = { g with
      symbolTable := g.symbolTable ++ [⟨storedName n g.nextMemoryAddress, g.nextMemoryAddress⟩]
      nextMemoryAddress := g.nextMemoryAddress + 1 } := by
  unfold addSymbol at h
  split_ifs at h
  cases h
  rfl

theorem parseTerm_table (g g1 : Globals) (node : ASTNode) (h : parseTerm g = .ok (node, g1)) :
    g1.symbolTable = g.symbolTable ∧ g1.nextMemoryAddress = g.nextMemoryAddress := by
  have := parseTerm_preserves
    (fun x => x.symbolTable = g.symbolTable ∧ x.nextMemoryAddress = g.nextMemoryAddress)
    (fun _ hx => hx) g ⟨rfl, rfl⟩
  rw [h] at this
  exact this

theorem parseCondition_table (g g1 : Globals) (node : ASTNode)
    (h : parseCondition g = .ok (node, g1)) :
    g1.symbolTable = g.symbolTable ∧ g1.nextMemoryAddress = g.nextMemoryAddress := by
  have := parseCondition_preserves
    (fun x => x.symbolTable = g.symbolTable ∧ x.nextMemoryAddress = g.nextMemoryAddress)
    (fun _ hx => hx) g ⟨rfl, rfl⟩
  rw [h] at this
  exact this

theorem parseAssignment_table (g g1 : Globals) (node : ASTNode)
    (h : parseAssignment g = .ok (node, g1)) :
    g1.symbolTable = g.symbolTable ∧ g1.nextMemoryAddress = g.nextMemoryAddress := by
  have := parseAssignment_preserves
    (fun x => x.symbolTable = g.symbolTable ∧ x.nextMemoryAddress = g.nextMemoryAddress)
    (fun _ hx => hx) g ⟨rfl, rfl⟩
  rw [h] at this
  exact this

/-- What a successful `parseAssignment` returns. -/
theorem parseAssignment_ok (g g1 : Globals) (node : ASTNode)
    (h : parseAssignment g = .ok (node, g1)) :
    ∃ e g2, parseExpression (advance (advance g)) = .ok (e, g2) ∧
      node = .NODE_ASSIGN (.NODE_VAR g.currentToken.text) e ∧ g1 = advance g2 ∧
      lookupSymbol g.symbolTable g.currentToken.text ≠ -1 := by
  unfold parseAssignment at h
  simp only [] at h
  split_ifs at h with h1 h2
  cases he : parseExpression (advance (advance g)) with
  | error e => simp [he] at h
  | ok v =>
    obtain ⟨e, g2⟩ := v
    simp only [he] at h
    split_ifs at h
    cases h
    exact ⟨e, g2, rfl, rfl, rfl, h1⟩

/-- What a successful `parseDeclaration` returns. -/
theorem parseDeclaration_ok (g g1 : Globals) (node : ASTNode)
    (h : parseDeclaration g = .ok (node, g1)) :
    ∃ g2, addSymbol (advance g) (advance g).currentToken.text = .ok g2 ∧
      node = .NODE_DECL (advance g).currentToken.text ∧ g1 = advance (advance g2) := by
  unfold parseDeclaration at h
  simp only [] at h
  split_ifs at h
  cases ha : addSymbol (advance g) (advance g).currentToken.text with
  | error e => simp [ha] at h
  | ok g2 =>
    simp only [ha] at h
    split_ifs at h
    cases h
    exact ⟨g2, rfl, rfl, rfl⟩

/-- What a successful `parseIfStatement` returns. -/
theorem parseIfStatement_ok (fuel : Nat) (g g1 : Globals) (node : ASTNode)
    (h : parseIfStatement fuel g = .ok (node, g1)) :
    ∃ n c g2 body g4, fuel = n + 1 ∧ parseCondition (advance (advance g)) = .ok (c, g2) ∧
      parseStatements .TOKEN_RBRACE n (advance (advance g2)) = .ok (body, g4) ∧
      node = .NODE_IF c body ∧ g1 = advance g4 := by
  cases fuel with
  | zero => simp [parseIfStatement_zero] at h
  | succ n =>
    rw [parseIfStatement_succ] at h
    split_ifs at h
    cases hc : parseCondition (advance (advance g)) with
    | error e => simp [hc] at h
    | ok v =>
      obtain ⟨c, g2⟩ := v
      simp only [hc] at h
      split_ifs at h
      cases hb : parseStatements .TOKEN_RBRACE n (advance (advance g2)) with
      | error e => simp [hb] at h
      | ok v =>
        obtain ⟨body, g4⟩ := v
        simp only [hb] at h
        cases h
        exact ⟨n, c, g2, body, g4, rfl, rfl, hb, rfl, rfl⟩

/-- What a successful `parseStatement` returns. -/
theorem parseStatement_ok (fuel : Nat) (g g1 : Globals) (node : ASTNode)
    (h : parseStatement fuel g = .ok (node, g1)) :
    ∃ n, fuel = n + 1 ∧ (parseDeclaration g = .ok (node, g1) ∨
      parseAssignment g = .ok (node, g1) ∨ parseIfStatement n g = .ok (node, g1)) := by
  cases fuel with
  | zero => simp [parseStatement_zero] at h
  | succ n =>
    rw [parseStatement_succ] at h
    refine ⟨n, rfl, ?_⟩
    split_ifs at h
    · exact Or.inl h
    · exact Or.inr (Or.inl h)
    · exact Or.inr (Or.inr h)

/-- What a successful statement loop returns. -/
theorem parseStatements_ok (stop : TokenType) (fuel : Nat) (g g1 : Globals)
    (body : List ASTNode) (h : parseStatements stop fuel g = .ok (body, g1)) :
    ∃ n, fuel = n + 1 ∧ ((g.currentToken.type = stop ∧ body = [] ∧ g1 = g) ∨
      (g.currentToken.type ≠ stop ∧ ∃ s g2 rest, parseStatement n g = .ok (s, g2) ∧
        parseStatements stop n g2 = .ok (rest, g1) ∧ body = s :: rest)) := by
  cases fuel with
  | zero => simp [parseStatements_zero] at h
  | succ n =>
    rw [parseStatements_succ] at h
    refine ⟨n, rfl, ?_⟩
    split_ifs at h with hs
    · right
      cases hp : parseStatement n g with
      | error e => simp [hp] at h
      | ok v =>
        obtain ⟨s, g2⟩ := v
        simp only [hp] at h
        cases hb : parseStatements stop n g2 with
        | error e => simp [hb] at h
        | ok v =>
          obtain ⟨rest, g3⟩ := v
          simp only [hb] at h
          cases h
          exact ⟨hs, s, g2, rest, rfl, hb, rfl⟩
    · left
      cases h
      exact ⟨not_not.1 hs, rfl, rfl⟩

/-- What a successful `parseProgram` returns. -/
theorem parseProgram_ok (fuel : Nat) (g g1 : Globals) (prog : ASTNode)
    (h : parseProgram fuel g = .ok (prog, g1)) :
    ∃ body, prog = .NODE_PROGRAM body ∧ parseStatements .TOKEN_EOF fuel g = .ok (body, g1) := by
  unfold parseProgram at h
  cases hb : parseStatements .TOKEN_EOF fuel g with
  | error e => simp [hb] at h
  | ok v =>
    obtain ⟨body, g2⟩ := v
    simp only [hb] at h
    cases h
    exact ⟨body, rfl, rfl⟩

/-- A successful parse declares exactly the names of the `Decl` nodes of the
tree it returns, in source order, at consecutive addresses. -/
theorem parse_declares (fuel : Nat) :
    (∀ g node g1, parseStatement fuel g = .ok (node, g1) → Declared g (declNames node) g1) ∧
    (∀ g node g1, parseIfStatement fuel g = .ok (node, g1) →
      Declared g (declNames node) g1) ∧
    (∀ stop g body g1, parseStatements stop fuel g = .ok (body, g1) →
      Declared g (declNamesList body) g1) := by
  induction fuel with
  | zero =>
    refine ⟨?_, ?_, ?_⟩ <;> intros <;>
      simp_all [parseStatement_zero, parseIfStatement_zero, parseStatements_zero]
  | succ n ih =>
    obtain ⟨ihS, ihI, ihL⟩ := ih
    refine ⟨?_, ?_, ?_⟩
    · intro g node g1 h
      obtain ⟨m, hm, h | h | h⟩ := parseStatement_ok _ _ _ _ h
      · obtain ⟨g2, ha, rfl, rfl⟩ := parseDeclaration_ok _ _ _ h
        have := addSymbol_ok _ _ _ ha
        subst this
        simp [Declared, declNames, allocate, advance]
      · obtain ⟨e, g2, he, rfl, rfl, -⟩ := parseAssignment_ok _ _ _ h
        exact Declared.of_eq (parseAssignment_table _ _ _ h)
      · cases Nat.succ.inj hm
        exact ihI g node g1 h
    · intro g node g1 h
      obtain ⟨m, c, g2, body, g4, hm, hc, hb, rfl, rfl⟩ := parseIfStatement_ok _ _ _ _ h
      cases Nat.succ.inj hm
      rw [declNames]
      have h1 := ihL _ _ _ _ hb
      have h2 := parseCondition_table _ _ _ hc
      have h3 : Declared g [] (advance (advance g2)) := Declared.of_eq h2
      exact Declared.trans h3 h1
    · intro stop g body g1 h
      obtain ⟨m, hm, ⟨-, rfl, rfl⟩ | ⟨-, s, g2, rest, hs, hr, rfl⟩⟩ :=
        parseStatements_ok _ _ _ _ _ h
      · exact Declared.refl _
      · cases Nat.succ.inj hm
        rw [declNamesList]
        exact Declared.trans (ihS _ _ _ hs) (ihL _ _ _ _ hr)

theorem addSymbol_AddrInv (g : Globals) (n : List Char) (g1 : Globals) (hinv : AddrInv g)
    (h : addSymbol g n = .ok g1) : AddrInv g1 := by
  have := addSymbol_ok _ _ _ h
  subst this
  obtain ⟨h1, h2⟩ := hinv
  refine ⟨?_, ?_⟩
  · intro i
    obtain ⟨i, hi⟩ := i
    simp only [List.length_append, List.length_singleton] at hi
    by_cases hlt : i < g.symbolTable.length
    · simp only [List.get_eq_getElem]
      rw [List.getElem_append_left hlt]
      exact h1 ⟨i, hlt⟩
    · have : i = g.symbolTable.length := by omega
      subst this
      simp only [List.get_eq_getElem]
      rw [List.getElem_append_right (le_refl _)]
      simp [h2, symbolCount]
  · simp only [symbolCount, List.length_append, List.length_singleton, h2]
    push_cast
    ring

theorem lookupSymbol_append (table ext : List Symbol) (n : List Char)
    (h : lookupSymbol table n ≠ -1) : lookupSymbol (table ++ ext) n = lookupSymbol table n := by
  induction table with
  | nil => simp [lookupSymbol] at h
  | cons s rest ih =>
    rw [List.cons_append, lookupSymbol, lookupSymbol]
    split_ifs with hs
    · rfl
    · rw [lookupSymbol, if_neg hs] at h
      exact ih h

theorem parseTerm_declared (g g1 : Globals) (node : ASTNode)
    (h : parseTerm g = .ok (node, g1)) :
    ∀ n ∈ usedNames node, lookupSymbol g.symbolTable n ≠ -1 := by
  unfold parseTerm at h
  split_ifs at h with h1 h2 h3
  · cases h
    simpa [usedNames] using h2
  · cases h
    simp [usedNames]

theorem parseExpression_declared (g g1 : Globals) (node : ASTNode)
    (h : parseExpression g = .ok (node, g1)) :
    ∀ n ∈ usedNames node, lookupSymbol g.symbolTable n ≠ -1 := by
  unfold parseExpression at h
  cases ht : parseTerm g with
  | error e => simp [ht] at h
  | ok v =>
    obtain ⟨l, g2⟩ := v
    have hl := parseTerm_declared _ _ _ ht
    have hg2 := (parseTerm_table _ _ _ ht).1
    simp only [ht] at h
    split_ifs at h
    · cases ht2 : parseTerm (advance g2) with
      | error e => simp [ht2] at h
      | ok v =>
        obtain ⟨r, g3⟩ := v
        have hr := parseTerm_declared _ _ _ ht2
        simp only [ht2] at h
        cases h
        intro n hn
        simp only [usedNames, List.mem_append] at hn
        rcases hn with hn | hn
        · exact hl n hn
        · have := hr n hn
          rwa [advance_symbolTable, hg2] at this
    · cases h
      exact hl

/-- What a successful `parseCondition` returns. -/
theorem parseCondition_ok (g g1 : Globals) (node : ASTNode)
    (h : parseCondition g = .ok (node, g1)) :
    ∃ r, parseTerm (advance (advance g)) = .ok (r, g1) ∧
      node = .NODE_BINOP '=' (.NODE_VAR g.currentToken.text) r := by
  unfold parseCondition at h
  simp only [] at h
  split_ifs at h
  cases ht : parseTerm (advance (advance g)) with
  | error e => simp [ht] at h
  | ok v =>
    obtain ⟨r, g3⟩ := v
    simp only [ht] at h
    cases h
    exact ⟨r, rfl, rfl⟩

/-- In every tree the parser returns, the names used as assignment target or
as term are in the symbol table. -/
theorem parse_declared (fuel : Nat) :
    (∀ g node g1, parseStatement fuel g = .ok (node, g1) →
      ∀ n ∈ usedNames node, lookupSymbol g1.symbolTable n ≠ -1) ∧
    (∀ g node g1, parseIfStatement fuel g = .ok (node, g1) →
      ∀ n ∈ usedNames node, lookupSymbol g1.symbolTable n ≠ -1) ∧
    (∀ stop g body g1, parseStatements stop fuel g = .ok (body, g1) →
      ∀ n ∈ usedNamesList body, lookupSymbol g1.symbolTable n ≠ -1) := by
  induction fuel with
  | zero =>
    refine ⟨?_, ?_, ?_⟩ <;> intros <;>
      simp_all [parseStatement_zero, parseIfStatement_zero, parseStatements_zero]
  | succ k ih =>
    obtain ⟨ihS, ihI, ihL⟩ := ih
    refine ⟨?_, ?_, ?_⟩
    · intro g node g1 h
      obtain ⟨m, hm, h | h | h⟩ := parseStatement_ok _ _ _ _ h
      · obtain ⟨g2, ha, rfl, rfl⟩ := parseDeclaration_ok _ _ _ h
        simp [usedNames]
      · have ht := (parseAssignment_table _ _ _ h).1
        obtain ⟨e, g2, he, rfl, rfl, hl⟩ := parseAssignment_ok _ _ _ h
        intro n hn
        rw [ht]
        simp only [usedNames, List.mem_append, List.mem_singleton] at hn
        rcases hn with rfl | hn
        · exact hl
        · exact parseExpression_declared _ _ _ he n hn
      · cases Nat.succ.inj hm
        exact ihI g node g1 h
    · intro g node g1 h
      obtain ⟨m, c, g2, body, g4, hm, hc, hb, rfl, rfl⟩ := parseIfStatement_ok _ _ _ _ h
      cases Nat.succ.inj hm
      have hd := ((parse_declares k).2.2 _ _ _ _ hb).1
      have ht := (parseCondition_table _ _ _ hc).1
      obtain ⟨r, hr, rfl⟩ := parseCondition_ok _ _ _ hc
      intro n hn
      simp only [usedNames, List.mem_append] at hn
      rcases hn with hn | hn
      · have h1 : lookupSymbol g.symbolTable n ≠ -1 := parseTerm_declared _ _ _ hr n hn
        have h2 : g2.symbolTable = g.symbolTable := ht
        have h3 : (advance g4).symbolTable = g.symbolTable ++
            allocate (advance (advance g2)).nextMemoryAddress (declNamesList body) := by
          rw [← h2]
          exact hd
        rw [h3, lookupSymbol_append _ _ _ h1]
        exact h1
      · exact ihL _ _ _ _ hb n hn
    · intro stop g body g1 h
      obtain ⟨m, hm, ⟨-, rfl, rfl⟩ | ⟨-, s, g2, rest, hs, hr, rfl⟩⟩ :=
        parseStatements_ok _ _ _ _ _ h
      · simp [usedNamesList]
      · cases Nat.succ.inj hm
        have hd := ((parse_declares k).2.2 _ _ _ _ hr).1
        intro n hn
        simp only [usedNamesList, List.mem_append] at hn
        rcases hn with hn | hn
        · have h1 := ihS _ _ _ hs n hn
          rw [hd, lookupSymbol_append _ _ _ h1]
          exact h1
        · exact ihL _ _ _ _ hr n hn

/-- C3: with `n` the current identifier and `n` not in the symbol table,
`parseAssignment` (assignment target) and `parseTerm` (term) exit with
"Variable used before declaration", having consumed nothing.  Hence a
statement exits with that error when the undeclared identifier is its
assignment target, the first or the second operand of its expression, or the
right operand of its condition; the error of a statement ends the statement
loop it is in, the enclosing `If`, `parseProgram` and `main` with the same
error, no tree being returned, and at that exit no instruction has been
emitted.  Conversely, in every tree that `parseStatement` or `parseProgram`
returns, each name used as assignment target or as term is in the table. -/
theorem undeclared_use_fails :
    (∀ g, lookupSymbol g.symbolTable g.currentToken.text = -1 →
      parseAssignment g = .error (.usedBeforeDeclaration, g)) ∧
    (∀ g, g.currentToken.type = .TOKEN_IDENTIFIER →
      lookupSymbol g.symbolTable g.currentToken.text = -1 →
      parseTerm g = .error (.usedBeforeDeclaration, g)) ∧
    (∀ fuel g, g.currentToken.type = .TOKEN_IDENTIFIER →
      lookupSymbol g.symbolTable g.currentToken.text = -1 →
      parseStatement (fuel + 1) g = .error (.usedBeforeDeclaration, g)) ∧
    (∀ fuel g, g.currentToken.type = .TOKEN_IDENTIFIER →
      lookupSymbol g.symbolTable g.currentToken.text ≠ -1 →
      (advance g).currentToken.type = .TOKEN_ASSIGN →
      (advance (advance g)).currentToken.type = .TOKEN_IDENTIFIER →
      lookupSymbol g.symbolTable (advance (advance g)).currentToken.text = -1 →
      parseStatement (fuel + 1) g = .error (.usedBeforeDeclaration, advance (advance g))) ∧
    (∀ fuel g l g3, g.currentToken.type = .TOKEN_IDENTIFIER →
      lookupSymbol g.symbolTable g.currentToken.text ≠ -1 →
      (advance g).currentToken.type = .TOKEN_ASSIGN →
      parseTerm (advance (advance g)) = .ok (l, g3) →
      (g3.currentToken.type = .TOKEN_PLUS ∨ g3.currentToken.type = .TOKEN_MINUS) →
      (advance g3).currentToken.type = .TOKEN_IDENTIFIER →
      lookupSymbol g3.symbolTable (advance g3).currentToken.text = -1 →
      parseStatement (fuel + 1) g = .error (.usedBeforeDeclaration, advance g3)) ∧
    (∀ fuel g, g.currentToken.type = .TOKEN_IF →
      (advance g).currentToken.type = .TOKEN_LPAREN →
      (advance (advance (advance g))).currentToken.type = .TOKEN_EQUAL →
      (advance (advance (advance (advance g)))).currentToken.type = .TOKEN_IDENTIFIER →
      lookupSymbol g.symbolTable (advance (advance (advance (advance g)))).currentToken.text
        = -1 →
      parseStatement (fuel + 2) g =
        .error (.usedBeforeDeclaration, advance (advance (advance (advance g))))) ∧
    (∀ stop fuel g x, g.currentToken.type ≠ stop → parseStatement fuel g = .error x →
      parseStatements stop (fuel + 1) g = .error x) ∧
    (∀ stop fuel g s g1 x, g.currentToken.type ≠ stop → parseStatement fuel g = .ok (s, g1) →
      parseStatements stop fuel g1 = .error x →
      parseStatements stop (fuel + 1) g = .error x) ∧
    (∀ fuel g c g2 x, (advance g).currentToken.type = .TOKEN_LPAREN →
      parseCondition (advance (advance g)) = .ok (c, g2) →
      g2.currentToken.type = .TOKEN_RPAREN →
      (advance g2).currentToken.type = .TOKEN_LBRACE →
      parseStatements .TOKEN_RBRACE fuel (advance (advance g2)) = .error x →
      parseIfStatement (fuel + 1) g = .error x ∧
      (g.currentToken.type = .TOKEN_IF → parseStatement (fuel + 2) g = .error x)) ∧
    (∀ fuel src x, parseStatements .TOKEN_EOF fuel (advance (initGlobals src)) = .error x →
      parseProgram fuel (advance (initGlobals src)) = .error x ∧
      main fuel src = .error x ∧ x.2.asmFile = []) ∧
    (∀ fuel g node g1,
      (parseStatement fuel g = .ok (node, g1) ∨ parseProgram fuel g = .ok (node, g1)) →
      ∀ n ∈ usedNames node, lookupSymbol g1.symbolTable n ≠ -1) := by
  refine ⟨?_, ?_, ?_, ?_, ?_, ?_, ?_, ?_, ?_, ?_, ?_⟩
  · intro g h
    simp [parseAssignment, h]
  · intro g ht h
    simp [parseTerm, ht, h]
  · intro fuel g ht h
    simp [parseStatement_succ, ht, parseAssignment, h]
  · intro fuel g ht h h1 h2 h3
    simp [parseStatement_succ, ht, parseAssignment, h, h1, parseExpression, parseTerm, h2, h3,
      advance_symbolTable]
  · intro fuel g l g3 ht h h1 h2 h3 h4 h5
    have h6 : parseTerm (advance g3) = .error (.usedBeforeDeclaration, advance g3) := by
      simp [parseTerm, h4, h5, advance_symbolTable]
    simp only [parseStatement_succ, ht, parseAssignment, h, h1, parseExpression, h2, h3, h6]
    simp
  · intro fuel g ht h1 h2 h3 h4
    simp [parseStatement_succ, ht, parseIfStatement_succ, h1, parseCondition, h2, parseTerm, h3,
      h4, advance_symbolTable]
  · intro stop fuel g x hs h
    simp [parseStatements_succ, hs, h]
  · intro stop fuel g s g1 x hs h h1
    simp [parseStatements_succ, hs, h, h1]
  · intro fuel g c g2 x h1 h2 h3 h4 h5
    have h6 : parseIfStatement (fuel + 1) g = .error x := by
      simp [parseIfStatement_succ, h1, h2, h3, h4, h5]
    refine ⟨h6, fun ht => ?_⟩
    simp [parseStatement_succ, ht, h6]
  · intro fuel src x h
    have hp : parseProgram fuel (advance (initGlobals src)) = .error x := by
      simp [parseProgram, h]
    refine ⟨hp, by simp [main, hp], ?_⟩
    have hk := (parseProgram_keeps_output fuel (advance (initGlobals src))).1
    rw [hp] at hk
    exact hk
  · intro fuel g node g1 h
    rcases h with h | h
    · exact (parse_declared fuel).1 g node g1 h
    · obtain ⟨body, rfl, hb⟩ := parseProgram_ok _ _ _ _ h
      exact (parse_declared fuel).2.2 _ g body g1 hb

/-- C3 at concrete inputs: `y = 1;` and `if (x == y)` with an empty table, and
the program `int x; x = y;`, which `main` rejects with no instruction
emitted. -/
theorem undeclared_use_fails_witness :
    parseStatement 1 (advance (initGlobals "y = 1;".toList)) =
      .error (.usedBeforeDeclaration, advance (initGlobals "y = 1;".toList)) ∧
    parseStatement 2 (advance (initGlobals "if (x == y)".toList)) =
      .error (.usedBeforeDeclaration,
        { file := [')'], currentToken := ⟨.TOKEN_IDENTIFIER, ['y']⟩, symbolTable := [],
          nextMemoryAddress := 0x10, labelCounter := 0, asmFile := [] }) ∧
    main 3 "int x; x = y;".toList =
      .error (.usedBeforeDeclaration,
        { file := [';'], currentToken := ⟨.TOKEN_IDENTIFIER, ['y']⟩,
          symbolTable := [⟨['x'], 0x10⟩], nextMemoryAddress := 0x11, labelCounter := 0,
          asmFile := [] }) :=
  ⟨undeclared_use_fails.2.2.1 0 _ rfl rfl,
   undeclared_use_fails.2.2.2.2.2.1 0 _ rfl rfl rfl rfl rfl,
   (undeclared_use_fails.2.2.2.2.2.2.2.2.2.1 3 "int x; x = y;".toList _ rfl).2.1⟩

/-! ## The code generator on parsed trees -/

theorem countIf_of_isTerm (t : ASTNode) (h : isTerm t = true) : countIf t = 0 := by
  cases t <;> simp_all [isTerm, countIf]

theorem countIf_of_isExpression (e : ASTNode) (h : isExpression e = true) : countIf e = 0 := by
  cases e <;> simp_all [isExpression, isTerm, countIf, countIf_of_isTerm]

theorem countIf_of_isCondition (c : ASTNode) (h : isCondition c = true) : countIf c = 0 := by
  unfold isCondition at h
  split at h
  · simp_all [countIf, countIf_of_isTerm]
  · simp at h

theorem isCondition_eq (c : ASTNode) (h : isCondition c = true) :
    ∃ l r, c = .NODE_BINOP '=' (.NODE_VAR l) r ∧ isTerm r = true := by
  unfold isCondition at h
  split at h
  · rename_i op l r
    simp only [Bool.and_eq_true, decide_eq_true_eq] at h
    exact ⟨l, r, by rw [h.1], h.2⟩
  · simp at h

/-- The `If` case of `generateStatement` when the condition has both
children. -/
theorem generateStatement_if (op : Char) (l r : ASTNode) (body : List ASTNode) (g : Globals) :
    generateStatement (.NODE_IF (.NODE_BINOP op l r) body) g =
      match generateStatements body
          (withOutput g [.LOAD (lookupSymbol g.symbolTable l.name), cmpCode g.symbolTable r,
            .JNZ g.labelCounter] 1) with
      | .error e => .error e
      | .ok g4 => .ok (emit g4 (.LABEL g.labelCounter)) := by
  cases r <;> simp [generateStatement, ASTNode.left?, ASTNode.right?, cmpCode, emit, withOutput]

mutual
/-- On a statement of the shape the parser builds, `generateStatement`
returns, having appended the statement's group to the output and advanced the
label counter by the number of `If` nodes of the statement. -/
theorem generateStatement_eq : ∀ (s : ASTNode) (g : Globals), isStatement s = true →
    generateStatement s g =
      .ok (withOutput g (stmtGroup g.symbolTable s g.labelCounter) (countIf s))
  | .NODE_DECL n, g, _ => by
    simp [generateStatement, stmtGroup, countIf, withOutput]
  | .NODE_ASSIGN l r, g, h => by
    cases l <;> simp [isStatement] at h
    simp [generateStatement, stmtGroup, countIf, withOutput, generateExpression_eq, emit,
      countIf_of_isExpression r h, ASTNode.name]
  | .NODE_IF c body, g, h => by
    simp only [isStatement, Bool.and_eq_true] at h
    obtain ⟨hc, hb⟩ := h
    obtain ⟨l, r, rfl, hr⟩ := isCondition_eq c hc
    rw [generateStatement_if, generateStatements_eq body _ hb]
    simp [stmtGroup, countIf, withOutput, emit, ASTNode.name, countIf_of_isTerm r hr,
      Nat.add_assoc, Nat.add_comm 1]
  | .NODE_PROGRAM b, g, h => by simp [isStatement] at h
  | .NODE_BINOP o l r, g, h => by simp [isStatement] at h
  | .NODE_VAR n, g, h => by simp [isStatement] at h
  | .NODE_NUM v, g, h => by simp [isStatement] at h
/-- On a statement chain of the shape the parser builds, the statement loop of
the code generator appends the concatenation of the groups. -/
theorem generateStatements_eq : ∀ (l : List ASTNode) (g : Globals),
    isStatementList l = true →
    generateStatements l g =
      .ok (withOutput g (stmtGroups g.symbolTable l g.labelCounter) (countIfList l))
  | [], g, _ => by
    simp [generateStatements, stmtGroups, countIfList, withOutput]
  | s :: rest, g, h => by
    simp only [isStatementList, Bool.and_eq_true] at h
    rw [generateStatements, generateStatement_eq s g h.1]
    simp only []
    rw [generateStatements_eq rest _ h.2]
    simp [stmtGroups, countIfList, withOutput, Nat.add_assoc]
end

/-! ## The shape of parsed trees -/

theorem parseTerm_shape (g g1 : Globals) (node : ASTNode) (h : parseTerm g = .ok (node, g1)) :
    isTerm node = true := by
  unfold parseTerm at h
  split_ifs at h <;> cases h <;> rfl

theorem parseExpression_shape (g g1 : Globals) (node : ASTNode)
    (h : parseExpression g = .ok (node, g1)) : isExpression node = true := by
  unfold parseExpression at h
  cases ht : parseTerm g with
  | error e => simp [ht] at h
  | ok v =>
    obtain ⟨l, g2⟩ := v
    have hl := parseTerm_shape _ _ _ ht
    simp only [ht] at h
    split_ifs at h
    · cases ht2 : parseTerm (advance g2) with
      | error e => simp [ht2] at h
      | ok v =>
        obtain ⟨r, g3⟩ := v
        have hr := parseTerm_shape _ _ _ ht2
        simp only [ht2] at h
        cases h
        simp [isExpression, hl, hr]
    · cases h
      cases node <;> simp_all [isExpression, isTerm]

theorem parseCondition_shape (g g1 : Globals) (node : ASTNode)
    (h : parseCondition g = .ok (node, g1)) : isCondition node = true := by
  unfold parseCondition at h
  simp only [] at h
  split_ifs at h
  cases ht : parseTerm (advance (advance g)) with
  | error e => simp [ht] at h
  | ok v =>
    obtain ⟨r, g3⟩ := v
    have hr := parseTerm_shape _ _ _ ht
    simp only [ht] at h
    cases h
    simp [isCondition, hr]

/-- Every tree the parser returns has the shape of the grammar. -/
theorem parse_shape (fuel : Nat) :
    (∀ g node g1, parseStatement fuel g = .ok (node, g1) → isStatement node = true) ∧
    (∀ g node g1, parseIfStatement fuel g = .ok (node, g1) → isStatement node = true) ∧
    (∀ stop g body g1, parseStatements stop fuel g = .ok (body, g1) →
      isStatementList body = true) := by
  induction fuel with
  | zero =>
    refine ⟨?_, ?_, ?_⟩ <;> intros <;>
      simp_all [parseStatement_zero, parseIfStatement_zero, parseStatements_zero]
  | succ n ih =>
    obtain ⟨ihS, ihI, ihL⟩ := ih
    refine ⟨?_, ?_, ?_⟩
    · intro g node g1 h
      obtain ⟨m, hm, h | h | h⟩ := parseStatement_ok _ _ _ _ h
      · obtain ⟨g2, ha, rfl, rfl⟩ := parseDeclaration_ok _ _ _ h
        rfl
      · obtain ⟨e, g2, he, rfl, rfl, -⟩ := parseAssignment_ok _ _ _ h
        simpa [isStatement] using parseExpression_shape _ _ _ he
      · cases Nat.succ.inj hm
        exact ihI g node g1 h
    · intro g node g1 h
      obtain ⟨m, c, g2, body, g4, hm, hc, hb, rfl, rfl⟩ := parseIfStatement_ok _ _ _ _ h
      cases Nat.succ.inj hm
      simp [isStatement, parseCondition_shape _ _ _ hc, ihL _ _ _ _ hb]
    · intro stop g body g1 h
      obtain ⟨m, hm, ⟨-, rfl, rfl⟩ | ⟨-, s, g2, rest, hs, hr, rfl⟩⟩ :=
        parseStatements_ok _ _ _ _ _ h
      · rfl
      · cases Nat.succ.inj hm
        simp [isStatementList, ihS _ _ _ hs, ihL _ _ _ _ hr]

/-- On a tree returned by `parseProgram`, `generateCode` returns, having
appended the groups of the statement chain. -/
theorem generateCode_parsed (fuel : Nat) (g g1 : Globals) (prog : ASTNode)
    (h : parseProgram fuel g = .ok (prog, g1)) :
    ∃ body, prog = .NODE_PROGRAM body ∧ isStatementList body = true ∧
      ∀ G : Globals, generateCode prog G =
        .ok (withOutput G (stmtGroups G.symbolTable body G.labelCounter) (countIfList body)) := by
  obtain ⟨body, rfl, hb⟩ := parseProgram_ok _ _ _ _ h
  have hs := (parse_shape fuel).2.2 _ _ _ _ hb
  refine ⟨body, rfl, hs, fun G => ?_⟩
  rw [generateCode, generateStatements_eq body G hs]

/-! ## C8: the output is the concatenation of the statement groups -/

theorem jnzLabels_cons (i : Instr) (rest : List Instr) :
    jnzLabels (i :: rest) =
      (match i with
        | .JNZ l => [l]
        | _ => []) ++ jnzLabels rest := by
  cases i <;> rfl

theorem labelDefs_cons (i : Instr) (rest : List Instr) :
    labelDefs (i :: rest) =
      (match i with
        | .LABEL l => [l]
        | _ => []) ++ labelDefs rest := by
  cases i <;> rfl

theorem jnzLabels_append (a b : List Instr) :
    jnzLabels (a ++ b) = jnzLabels a ++ jnzLabels b := by
  induction a with
  | nil => rfl
  | cons i rest ih => rw [List.cons_append, jnzLabels_cons, jnzLabels_cons, ih, List.append_assoc]

theorem labelDefs_append (a b : List Instr) :
    labelDefs (a ++ b) = labelDefs a ++ labelDefs b := by
  induction a with
  | nil => rfl
  | cons i rest ih => rw [List.cons_append, labelDefs_cons, labelDefs_cons, ih, List.append_assoc]

/-- The code of an expression holds no jump and no label. -/
theorem exprCode_no_labels (table : List Symbol) : ∀ e : ASTNode,
    jnzLabels (exprCode table e) = [] ∧ labelDefs (exprCode table e) = []
  | .NODE_BINOP op l r => by
    have hl := exprCode_no_labels table l
    have hr := exprCode_no_labels table r
    simp only [exprCode, jnzLabels_append, labelDefs_append, hl, hr]
    split_ifs <;> simp [jnzLabels, labelDefs]
  | .NODE_NUM v => by simp [exprCode, jnzLabels, labelDefs]
  | .NODE_VAR n => by simp [exprCode, jnzLabels, labelDefs]
  | .NODE_PROGRAM b => by simp [exprCode, jnzLabels, labelDefs]
  | .NODE_DECL n => by simp [exprCode, jnzLabels, labelDefs]
  | .NODE_ASSIGN l r => by simp [exprCode, jnzLabels, labelDefs]
  | .NODE_IF c b => by simp [exprCode, jnzLabels, labelDefs]

theorem cmpCode_no_labels (table : List Symbol) (r : ASTNode) (rest : List Instr) :
    jnzLabels (cmpCode table r :: rest) = jnzLabels rest ∧
    labelDefs (cmpCode table r :: rest) = labelDefs rest := by
  cases r <;> simp [cmpCode, jnzLabels, labelDefs]

mutual
/-- In the group of a parsed statement reached with label counter `label`,
the jumps carry the labels `label, label + 1, ...` in this order, one per `If`
node, and the labels defined are the same ones, each once. -/
theorem stmtGroup_labels (table : List Symbol) : ∀ (s : ASTNode) (label : Nat),
    isStatement s = true →
    jnzLabels (stmtGroup table s label) = List.range' label (countIf s) ∧
    (labelDefs (stmtGroup table s label)).Perm (List.range' label (countIf s))
  | .NODE_DECL n, label, _ => by
    simp [stmtGroup, countIf, jnzLabels, labelDefs]
  | .NODE_ASSIGN l r, label, h => by
    cases l <;> simp [isStatement] at h
    simp [stmtGroup, countIf, jnzLabels_append, labelDefs_append, exprCode_no_labels,
      countIf_of_isExpression r h, jnzLabels, labelDefs]
  | .NODE_IF c body, label, h => by
    simp only [isStatement, Bool.and_eq_true] at h
    obtain ⟨hc, hb⟩ := h
    obtain ⟨l, r, rfl, hr⟩ := isCondition_eq c hc
    obtain ⟨ih1, ih2⟩ := stmtGroups_labels table body (label + 1) hb
    have hn : countIf (.NODE_IF (.NODE_BINOP '=' (.NODE_VAR l) r) body) =
        countIfList body + 1 := by
      simp [countIf, countIf_of_isTerm r hr, Nat.add_comm]
    have hg : stmtGroup table (.NODE_IF (.NODE_BINOP '=' (.NODE_VAR l) r) body) label =
        .LOAD (lookupSymbol table l) :: cmpCode table r :: .JNZ label ::
          (stmtGroups table body (label + 1) ++ [.LABEL label]) := by
      rw [stmtGroup]
      rfl
    have hj : jnzLabels [Instr.LABEL label] = [] := rfl
    have hd : labelDefs [Instr.LABEL label] = [label] := rfl
    rw [hn, List.range'_succ, hg, jnzLabels_cons, labelDefs_cons,
      (cmpCode_no_labels table r _).1, (cmpCode_no_labels table r _).2, jnzLabels_cons,
      labelDefs_cons, jnzLabels_append, labelDefs_append, ih1, hj, hd]
    refine ⟨by simp, ?_⟩
    exact (List.perm_append_singleton label _).trans (List.Perm.cons label ih2)
  | .NODE_PROGRAM b, _, h => by simp [isStatement] at h
  | .NODE_BINOP o l r, _, h => by simp [isStatement] at h
  | .NODE_VAR n, _, h => by simp [isStatement] at h
  | .NODE_NUM v, _, h => by simp [isStatement] at h
/-- The same for a chain of parsed statements. -/
theorem stmtGroups_labels (table : List Symbol) : ∀ (l : List ASTNode) (label : Nat),
    isStatementList l = true →
    jnzLabels (stmtGroups table l label) = List.range' label (countIfList l) ∧
    (labelDefs (stmtGroups table l label)).Perm (List.range' label (countIfList l))
  | [], label, _ => by
    simp [stmtGroups, countIfList, jnzLabels, labelDefs]
  | s :: rest, label, h => by
    simp only [isStatementList, Bool.and_eq_true] at h
    obtain ⟨h1, h2⟩ := stmtGroup_labels table s label h.1
    obtain ⟨h3, h4⟩ := stmtGroups_labels table rest (label + countIf s) h.2
    have hr : List.range' label (countIfList (s :: rest)) =
        List.range' label (countIf s) ++ List.range' (label + countIf s) (countIfList rest) := by
      rw [List.range'_append_1, countIfList, Nat.add_comm]
    have hg : stmtGroups table (s :: rest) label =
        stmtGroup table s label ++ stmtGroups table rest (label + countIf s) := by
      rw [stmtGroups]
    rw [hr, hg, jnzLabels_append, labelDefs_append, h1, h3]
    exact ⟨rfl, List.Perm.append h2 h4⟩
end

/-- The `If` case of `generateStatement` when the condition node has both
children. -/
theorem generateStatement_if_some (c l r : ASTNode) (body : List ASTNode) (g : Globals)
    (hl : c.left? = some l) (hr : c.right? = some r) :
    generateStatement (.NODE_IF c body) g =
      match generateStatements body
          (withOutput g [.LOAD (lookupSymbol g.symbolTable l.name), cmpCode g.symbolTable r,
            .JNZ g.labelCounter] 1) with
      | .error e => .error e
      | .ok g4 => .ok (emit g4 (.LABEL g.labelCounter)) := by
  rw [generateStatement]
  simp only [hl, hr]
  cases r <;> simp [cmpCode, emit, withOutput]

mutual
/-- The code generator only appends to the output. -/
theorem generateStatement_appends : ∀ (s : ASTNode) (G G1 : Globals),
    generateStatement s G = .ok G1 → ∃ out, G1.asmFile = G.asmFile ++ out
  | .NODE_DECL n, G, G1, h => by
    rw [generateStatement] at h
    cases h
    exact ⟨[], by simp⟩
  | .NODE_ASSIGN l r, G, G1, h => by
    rw [generateStatement, generateExpression_eq] at h
    cases h
    exact ⟨_ ++ [_], by simp [emit]; rfl⟩
  | .NODE_IF c body, G, G1, h => by
    cases hl : c.left? with
    | none => simp [generateStatement, hl] at h
    | some l =>
      cases hr : c.right? with
      | none => simp [generateStatement, hl, hr] at h
      | some r =>
        rw [generateStatement_if_some c l r body G hl hr] at h
        split at h
        · simp at h
        · rename_i g4 hb
          obtain ⟨out, ho⟩ := generateStatements_appends body _ _ hb
          cases h
          exact ⟨[.LOAD (lookupSymbol G.symbolTable l.name), cmpCode G.symbolTable r,
            .JNZ G.labelCounter] ++ out ++ [.LABEL G.labelCounter], by
            simp only [emit, ho, withOutput, List.append_assoc]⟩
  | .NODE_PROGRAM b, G, G1, h => by
    rw [generateStatement] at h
    · cases h
      exact ⟨[], by simp⟩
    all_goals simp
  | .NODE_BINOP o l r, G, G1, h => by
    rw [generateStatement] at h
    · cases h
      exact ⟨[], by simp⟩
    all_goals simp
  | .NODE_VAR n, G, G1, h => by
    rw [generateStatement] at h
    · cases h
      exact ⟨[], by simp⟩
    all_goals simp
  | .NODE_NUM v, G, G1, h => by
    rw [generateStatement] at h
    · cases h
      exact ⟨[], by simp⟩
    all_goals simp
/-- The statement loop of the code generator only appends to the output. -/
theorem generateStatements_appends : ∀ (l : List ASTNode) (G G1 : Globals),
    generateStatements l G = .ok G1 → ∃ out, G1.asmFile = G.asmFile ++ out
  | [], G, G1, h => by
    rw [generateStatements] at h
    cases h
    exact ⟨[], by simp⟩
  | s :: rest, G, G1, h => by
    rw [generateStatements] at h
    split at h
    · simp at h
    · rename_i g2 hs
      obtain ⟨o1, h1⟩ := generateStatement_appends s _ _ hs
      obtain ⟨o2, h2⟩ := generateStatements_appends rest _ _ h
      exact ⟨o1 ++ o2, by rw [h2, h1, List.append_assoc]⟩
end


/-- The code `generateStatement` emits for an `If` starts with
`LOAD A,<address of the left operand>`, then one `CMP`, whose operand is the
address of the right operand when that is a variable and the literal when it
is a number, then `JNZ` to the label. -/
theorem generateStatement_if_code (op : Char) (l r : ASTNode) (body : List ASTNode)
    (G G1 : Globals)
    (h : generateStatement (.NODE_IF (.NODE_BINOP op l r) body) G = .ok G1) :
    ∃ rest, G1.asmFile = G.asmFile ++
      .LOAD (lookupSymbol G.symbolTable l.name) ::
        cmpCode G.symbolTable r :: .JNZ G.labelCounter :: rest := by
  rw [generateStatement_if] at h
  split at h
  · simp at h
  · rename_i g4 hb
    obtain ⟨out, ho⟩ := generateStatements_appends body _ _ hb
    cases h
    exact ⟨out ++ [.LABEL G.labelCounter], by
      simp only [emit, ho, withOutput, List.append_assoc, List.cons_append, List.nil_append]⟩

theorem not_isspace_of_isalpha (c : Char) (h : isalpha c = true) : isspace c = false := by
  simp only [isalpha, isspace, Bool.or_eq_true, Bool.and_eq_true, decide_eq_true_eq,
    beq_iff_eq, Bool.or_eq_false_iff, Bool.and_eq_false_iff, beq_eq_false_iff_ne,
    decide_eq_false_iff_not] at h ⊢
  omega

theorem not_isspace_of_isdigit (c : Char) (h : isdigit c = true) : isspace c = false := by
  simp only [isdigit, isspace, Bool.and_eq_true, decide_eq_true_eq,
    beq_iff_eq, Bool.or_eq_false_iff, Bool.and_eq_false_iff, beq_eq_false_iff_ne,
    decide_eq_false_iff_not] at h ⊢
  omega

theorem not_isalpha_of_isdigit (c : Char) (h : isdigit c = true) : isalpha c = false := by
  simp only [isdigit, isalpha, Bool.and_eq_true, decide_eq_true_eq,
    Bool.or_eq_false_iff, Bool.and_eq_false_iff, decide_eq_false_iff_not] at h ⊢
  omega

/-- Leading white space is skipped. -/
theorem getNextToken_skip (ws s : List Char) (h : ∀ w ∈ ws, isspace w = true) :
    getNextToken (ws ++ s) = getNextToken s := by
  induction ws with
  | nil => rfl
  | cons w rest ih =>
    rw [List.cons_append, getNextToken, if_pos (h w (List.mem_cons_self _ _))]
    exact ih (fun x hx => h x (List.mem_cons_of_mem _ hx))

/-- The inner loop on a maximal run: the buffer ends up holding the first 99
characters of what was stored and scanned, and the whole run is consumed. -/
theorem scanRun_run (p : Char → Bool) (tail rest text : List Char)
    (htext : text.length ≤ 99) (htail : ∀ d ∈ tail, p d = true)
    (hrest : ∀ d, rest.head? = some d → p d = false) :
    scanRun p text (tail ++ rest) = ((text ++ tail).take 99, rest) := by
  induction tail generalizing text with
  | nil =>
    rw [List.nil_append, List.append_nil, List.take_of_length_le htext]
    cases rest with
    | nil => rfl
    | cons d r =>
      rw [scanRun, if_neg]
      simp [hrest d rfl]
  | cons x xs ih =>
    rw [List.cons_append, scanRun, if_pos (htail x (List.mem_cons_self _ _))]
    have hxs : ∀ d ∈ xs, p d = true := fun d hd => htail d (List.mem_cons_of_mem _ hd)
    by_cases hlen : text.length < MAX_TOKEN_LEN - 1
    · rw [if_pos hlen, ih _ (by simp [MAX_TOKEN_LEN] at hlen ⊢; omega) hxs]
      simp
    · rw [if_neg hlen, ih _ htext hxs]
      have h99 : text.length = 99 := by
        simp [MAX_TOKEN_LEN] at hlen
        omega
      rw [List.take_append_of_le_length (by omega), List.take_append_of_le_length (by omega)]

/-- C10: when the input is, after white space, a run `c :: tail` of a letter
followed by letters and digits (or of digits only) that ends at `rest` (the
end of input or a character that does not continue the run), `getNextToken`
returns the first 99 characters of the run as the token text and leaves
exactly `rest` unread: the excess characters are consumed and not stored.
The text is the whole run when it has at most 99 characters, and has 99
characters when the run is longer. -/
theorem token_text_truncated (ws tail rest : List Char) (c : Char)
    (hws : ∀ w ∈ ws, isspace w = true) :
    ((isalpha c = true ∧ (∀ d ∈ tail, isalnum d = true) ∧
        (∀ d, rest.head? = some d → isalnum d = false)) →
      getNextToken (ws ++ (c :: tail ++ rest)) =
        (⟨keywordType ((c :: tail).take 99), (c :: tail).take 99⟩, rest)) ∧
    ((isdigit c = true ∧ (∀ d ∈ tail, isdigit d = true) ∧
        (∀ d, rest.head? = some d → isdigit d = false)) →
      getNextToken (ws ++ (c :: tail ++ rest)) =
        (⟨.TOKEN_NUMBER, (c :: tail).take 99⟩, rest)) ∧
    ((c :: tail).length ≤ 99 → (c :: tail).take 99 = c :: tail) ∧
    (99 < (c :: tail).length → ((c :: tail).take 99).length = 99) := by
  refine ⟨?_, ?_, fun h => List.take_of_length_le h, fun h => ?_⟩
  · rintro ⟨hc, htail, hrest⟩
    rw [getNextToken_skip ws _ hws, List.cons_append, getNextToken,
      if_neg (by simp [not_isspace_of_isalpha c hc]), if_pos hc]
    simp only [scanRun_run isalnum tail rest [c] (by simp) htail hrest, List.singleton_append]
  · rintro ⟨hc, htail, hrest⟩
    rw [getNextToken_skip ws _ hws, List.cons_append, getNextToken,
      if_neg (by simp [not_isspace_of_isdigit c hc]),
      if_neg (by simp [not_isalpha_of_isdigit c hc]), if_pos hc]
    simp only [scanRun_run isdigit tail rest [c] (by simp) htail hrest, List.singleton_append]
  · rw [List.length_take]
    omega

/-- C10 on an identifier of 120 letters `a` followed by `;`: the token text
is 99 letters and the unread input is `;`. -/
theorem token_text_truncated_witness :
    getNextToken ([' '] ++ ('a' :: List.replicate 119 'a' ++ [';'])) =
      (⟨.TOKEN_IDENTIFIER, List.replicate 99 'a'⟩, [';']) :=
  ((token_text_truncated [' '] (List.replicate 119 'a') [';'] 'a' (by decide)).1
    ⟨by decide, fun d hd => by rw [List.eq_of_mem_replicate hd]; decide, by decide⟩).trans
    (by decide)

/-! ## The lexer on runs, symbols and white space -/

/-- The inner loop in general: the buffer receives the longest prefix of the
input made of characters satisfying `p`, cut at 99 characters in all, and that
whole prefix is consumed. -/
theorem scanRun_eq (p : Char → Bool) (s text : List Char) (htext : text.length ≤ 99) :
    scanRun p text s = ((text ++ s.takeWhile p).take 99, s.dropWhile p) := by
  have h := scanRun_run p (s.takeWhile p) (s.dropWhile p) text htext
    (fun d hd => List.mem_takeWhile_imp hd)
    (fun d hd => by
      cases hs : s.dropWhile p with
      | nil => simp [hs] at hd
      | cons x xs =>
        rw [hs] at hd
        cases hd
        have := List.head_dropWhile_not p s (by simp [hs])
        simpa [hs] using this)
  rwa [List.takeWhile_append_dropWhile] at h

/-- The lexer on an input starting with a letter. -/
theorem getNextToken_alpha (c : Char) (s : List Char) (hc : isalpha c = true) :
    getNextToken (c :: s) =
      (⟨keywordType ((c :: s.takeWhile isalnum).take 99), (c :: s.takeWhile isalnum).take 99⟩,
        s.dropWhile isalnum) := by
  rw [getNextToken, if_neg (by simp [not_isspace_of_isalpha c hc]), if_pos hc]
  simp only [scanRun_eq isalnum s [c] (by simp), List.singleton_append]

/-- The lexer on an input starting with a digit. -/
theorem getNextToken_digit (c : Char) (s : List Char) (hc : isdigit c = true) :
    getNextToken (c :: s) =
      (⟨.TOKEN_NUMBER, (c :: s.takeWhile isdigit).take 99⟩, s.dropWhile isdigit) := by
  rw [getNextToken, if_neg (by simp [not_isspace_of_isdigit c hc]),
    if_neg (by simp [not_isalpha_of_isdigit c hc]), if_pos hc]
  simp only [scanRun_eq isdigit s [c] (by simp), List.singleton_append]

/-- The lexer on an input starting with a character that is neither white
space, a letter nor a digit. -/
theorem getNextToken_symbol (c : Char) (s : List Char) (hs : isspace c = false)
    (ha : isalpha c = false) (hd : isdigit c = false) :
    getNextToken (c :: s) = scanSymbol c s := by
  rw [getNextToken, if_neg (by simp [hs]), if_neg (by simp [ha]), if_neg (by simp [hd])]

/-- An input of white space only yields the end-of-input token. -/
theorem getNextToken_blank (ws : List Char) (h : ∀ w ∈ ws, isspace w = true) :
    getNextToken ws = (⟨.TOKEN_EOF, []⟩, []) := by
  have := getNextToken_skip ws [] h
  rwa [List.append_nil] at this

/-! ## C14: keywords and identifiers -/

/-- C14: on an input that begins, after white space, with a letter `c`,
`getNextToken` consumes the longest run of letters and digits that follows
and returns as text the first 99 characters of the run (the whole run when it
has at most 99); the type is `TOKEN_INT` exactly when the text is `int`,
`TOKEN_IF` exactly when it is `if`, and `TOKEN_IDENTIFIER` otherwise. So
`intx`, `if1` and `Int` are identifiers. -/
theorem keyword_or_identifier (ws s : List Char) (c : Char)
    (hws : ∀ w ∈ ws, isspace w = true) (hc : isalpha c = true) :
    (getNextToken (ws ++ c :: s)).2 = s.dropWhile isalnum ∧
    (getNextToken (ws ++ c :: s)).1.text = (c :: s.takeWhile isalnum).take 99 ∧
    ((c :: s.takeWhile isalnum).length ≤ 99 →
      (getNextToken (ws ++ c :: s)).1.text = c :: s.takeWhile isalnum) ∧
    ((getNextToken (ws ++ c :: s)).1.type = .TOKEN_INT ↔
      (getNextToken (ws ++ c :: s)).1.text = ['i', 'n', 't']) ∧
    ((getNextToken (ws ++ c :: s)).1.type = .TOKEN_IF ↔
      (getNextToken (ws ++ c :: s)).1.text = ['i', 'f']) ∧
    ((getNextToken (ws ++ c :: s)).1.type = .TOKEN_IDENTIFIER ↔
      ((getNextToken (ws ++ c :: s)).1.text ≠ ['i', 'n', 't'] ∧
        (getNextToken (ws ++ c :: s)).1.text ≠ ['i', 'f'])) ∧
    getNextToken "intx".toList = (⟨.TOKEN_IDENTIFIER, "intx".toList⟩, []) ∧
    getNextToken "if1".toList = (⟨.TOKEN_IDENTIFIER, "if1".toList⟩, []) ∧
    getNextToken "Int".toList = (⟨.TOKEN_IDENTIFIER, "Int".toList⟩, []) := by
  rw [getNextToken_skip ws _ hws, getNextToken_alpha c s hc]
  refine ⟨rfl, rfl, fun h => List.take_of_length_le h, ?_, ?_, ?_, by decide, by decide,
    by decide⟩
  · simp only [keywordType]
    split_ifs with h1 h2 <;> simp_all
  · simp only [keywordType]
    split_ifs with h1 h2 <;> simp_all
  · simp only [keywordType]
    split_ifs with h1 h2 <;> simp_all

/-- C14 on ` int x`, ` if(` and ` intx;`. -/
theorem keyword_or_identifier_witness :
    (getNextToken " int x".toList).1.type = .TOKEN_INT ∧
    ((getNextToken " int x".toList).1.type = .TOKEN_INT ↔
      (getNextToken " int x".toList).1.text = ['i', 'n', 't']) ∧
    (getNextToken " intx;".toList).2 = [';'] :=
  ⟨by decide,
    (keyword_or_identifier [' '] "nt x".toList 'i' (by decide) (by decide)).2.2.2.1,
    (keyword_or_identifier [' '] "ntx;".toList 'i' (by decide) (by decide)).1.trans
      (by decide)⟩

/-! ## C15: assignment and equality -/

/-- C15: on an input beginning with `==`, `getNextToken` returns the equality
token with text `==` and leaves what follows the two characters; on an input
beginning with `=` followed by another character, or consisting of `=` only,
it returns the assignment token with text `=` and leaves what follows the one
character. So `===` is read as equality, then assignment. -/
theorem assign_or_equal :
    (∀ rest, getNextToken ('=' :: '=' :: rest) = (⟨.TOKEN_EQUAL, ['=', '=']⟩, rest)) ∧
    (∀ d rest, d ≠ '=' →
      getNextToken ('=' :: d :: rest) = (⟨.TOKEN_ASSIGN, ['=']⟩, d :: rest)) ∧
    getNextToken ['='] = (⟨.TOKEN_ASSIGN, ['=']⟩, []) ∧
    getNextToken ['=', '=', '='] = (⟨.TOKEN_EQUAL, ['=', '=']⟩, ['=']) ∧
    getNextToken (getNextToken ['=', '=', '=']).2 = (⟨.TOKEN_ASSIGN, ['=']⟩, []) := by
  have h : ∀ s, getNextToken ('=' :: s) = scanSymbol '=' s := fun s =>
    getNextToken_symbol '=' s (by decide) (by decide) (by decide)
  refine ⟨fun rest => ?_, fun d rest hd => ?_, by decide, by decide, by decide⟩
  · rw [h]
    simp [scanSymbol]
  · rw [h]
    simp [scanSymbol, hd]

/-- C15 on `=5`: the assignment token, one character consumed. -/
theorem assign_or_equal_witness :
    getNextToken ['=', '5'] = (⟨.TOKEN_ASSIGN, ['=']⟩, ['5']) :=
  assign_or_equal.2.1 '5' [] (by decide)

/-! ## C16: white space -/

/-- C16: white space before a token does not change what `getNextToken`
returns, token and unread input alike; on white space only it returns the
end-of-input token with empty text, the input being exhausted. -/
theorem leading_whitespace_skipped (w s : List Char) (hw : ∀ c ∈ w, isspace c = true) :
    getNextToken (w ++ s) = getNextToken s ∧
    getNextToken w = (⟨.TOKEN_EOF, []⟩, []) :=
  ⟨getNextToken_skip w s hw, getNextToken_blank w hw⟩

/-- C16 on blank, tab, newline, vertical tab, form feed and carriage return
before `x=1`. -/
theorem leading_whitespace_skipped_witness :
    getNextToken ([' ', '\t', '\n', Char.ofNat 11, Char.ofNat 12, '\r'] ++ "x=1".toList) =
      (⟨.TOKEN_IDENTIFIER, ['x']⟩, "=1".toList) ∧
    getNextToken [' ', '\t', '\n', Char.ofNat 11, Char.ofNat 12, '\r'] =
      (⟨.TOKEN_EOF, []⟩, []) :=
  ⟨(leading_whitespace_skipped [' ', '\t', '\n', Char.ofNat 11, Char.ofNat 12, '\r']
      "x=1".toList (by decide)).1.trans (by decide),
    (leading_whitespace_skipped [' ', '\t', '\n', Char.ofNat 11, Char.ofNat 12, '\r']
      [] (by decide)).2⟩

/-! ## What a call of the lexer consumes -/

theorem scanSymbol_suffix (c : Char) (s : List Char) : (scanSymbol c s).2 <:+ c :: s := by
  unfold scanSymbol
  split_ifs
  · split
    · split_ifs
      · exact (List.suffix_cons _ _).trans (List.suffix_cons _ _)
      · exact List.suffix_cons _ _
    · exact List.nil_suffix
  all_goals exact List.suffix_cons _ _

theorem scanSymbol_ne_eof (c : Char) (s : List Char) :
    (scanSymbol c s).1.type ≠ .TOKEN_EOF := by
  unfold scanSymbol
  split_ifs
  · split
    · split_ifs <;> simp
    · simp
  all_goals simp

/-- The unread input after a call is a suffix of the input before it; it is
shorter unless the end-of-input token is returned, and then it is empty. -/
theorem getNextToken_consumes (s : List Char) :
    (getNextToken s).2 <:+ s ∧
    ((getNextToken s).1.type ≠ .TOKEN_EOF → (getNextToken s).2.length < s.length) ∧
    ((getNextToken s).1.type = .TOKEN_EOF →
      (getNextToken s).1.text = [] ∧ (getNextToken s).2 = [] ∧ ∀ c ∈ s, isspace c = true) := by
  induction s with
  | nil => simp [getNextToken]
  | cons c s ih =>
    by_cases hs : isspace c = true
    · rw [getNextToken, if_pos hs]
      refine ⟨ih.1.trans (List.suffix_cons _ _), fun h => ?_, fun h => ?_⟩
      · have := ih.2.1 h
        simp only [List.length_cons]
        omega
      · obtain ⟨h1, h2, h3⟩ := ih.2.2 h
        refine ⟨h1, h2, fun x hx => ?_⟩
        rcases List.mem_cons.1 hx with rfl | hx
        · exact hs
        · exact h3 x hx
    · by_cases ha : isalpha c = true
      · rw [getNextToken_alpha c s ha]
        refine ⟨(List.dropWhile_suffix _).trans (List.suffix_cons _ _), fun _ => ?_, fun h => ?_⟩
        · have := (List.dropWhile_suffix isalnum : s.dropWhile isalnum <:+ s).length_le
          simp only [List.length_cons]
          omega
        · simp only [keywordType] at h
          split_ifs at h
      · by_cases hd : isdigit c = true
        · rw [getNextToken_digit c s hd]
          refine ⟨(List.dropWhile_suffix _).trans (List.suffix_cons _ _), fun _ => ?_,
            fun h => ?_⟩
          · have := (List.dropWhile_suffix isdigit : s.dropWhile isdigit <:+ s).length_le
            simp only [List.length_cons]
            omega
          · simp at h
        · rw [getNextToken_symbol c s (by simpa using hs) (by simpa using ha)
            (by simpa using hd)]
          refine ⟨scanSymbol_suffix c s, fun _ => ?_, fun h => ?_⟩
          · have h1 := (scanSymbol_suffix c s).length_le
            have h2 : (scanSymbol c s).2 ≠ c :: s := by
              unfold scanSymbol
              split_ifs
              · split
                · split_ifs
                  · intro h
                    have := congrArg List.length h
                    simp at this
                    omega
                  · intro h
                    have := congrArg List.length h
                    simp at this
                · simp
              all_goals
                intro h
                have := congrArg List.length h
                simp at this
            have h3 := (scanSymbol_suffix c s)
            rcases Nat.lt_or_ge (scanSymbol c s).2.length (c :: s).length with h4 | h4
            · exact h4
            · exact absurd (List.IsSuffix.eq_of_length (h3) (by omega)) h2
          · exact absurd h (scanSymbol_ne_eof c s)

theorem tokenizeFuel_congr (n : Nat) : ∀ (m : Nat) (s : List Char), s.length ≤ n →
    s.length ≤ m → tokenizeFuel n s = tokenizeFuel m s := by
  induction n with
  | zero =>
    intro m s hn _
    have : s = [] := List.length_eq_zero.1 (by omega)
    subst this
    cases m <;> simp [tokenizeFuel, getNextToken]
  | succ n ih =>
    intro m s hn hm
    cases m with
    | zero =>
      have : s = [] := List.length_eq_zero.1 (by omega)
      subst this
      simp [tokenizeFuel, getNextToken]
    | succ m =>
      rw [tokenizeFuel, tokenizeFuel]
      split_ifs with he
      · rfl
      · have hlt := (getNextToken_consumes s).2.1 he
        rw [ih m _ (by omega) (by omega)]

/-- More calls than the input has characters change nothing. -/
theorem tokenizeFuel_eq (n : Nat) (s : List Char) (h : s.length ≤ n) :
    tokenizeFuel n s = tokenize s :=
  tokenizeFuel_congr n s.length s h (Nat.le_refl _)

/-- The token stream of an input: nothing when the first call returns the
end-of-input token, else the token returned followed by the stream of the
unread input. -/
theorem tokenize_eq (s : List Char) :
    tokenize s =
      if (getNextToken s).1.type = .TOKEN_EOF then []
      else (getNextToken s).1 :: tokenize (getNextToken s).2 := by
  rw [← tokenizeFuel_eq (s.length + 1) s (by omega), tokenizeFuel]
  split_ifs with he
  · rfl
  · rw [tokenizeFuel_eq _ _ (by have := (getNextToken_consumes s).2.1 he; omega)]

/-! ## C19: the token texts and the input -/

theorem not_isspace_of_isalnum (c : Char) (h : isalnum c = true) : isspace c = false := by
  simp only [isalnum, Bool.or_eq_true] at h
  rcases h with h | h
  · exact not_isspace_of_isalpha c h
  · exact not_isspace_of_isdigit c h

theorem longestRunFrom_mono (s : List Char) : ∀ k k1 : Nat, k ≤ k1 →
    longestRunFrom k s ≤ longestRunFrom k1 s := by
  induction s with
  | nil => intro k k1 h; simpa [longestRunFrom] using h
  | cons c s ih =>
    intro k k1 h
    simp only [longestRunFrom]
    split_ifs
    · exact ih _ _ (by omega)
    · omega

theorem le_longestRunFrom (s : List Char) : ∀ k : Nat, k ≤ longestRunFrom k s := by
  induction s with
  | nil => intro k; simp [longestRunFrom]
  | cons c s ih =>
    intro k
    simp only [longestRunFrom]
    split_ifs
    · have := ih (k + 1)
      omega
    · omega

theorem longestRun_suffix (r s : List Char) (h : r <:+ s) (k : Nat) :
    longestRunFrom 0 r ≤ longestRunFrom k s := by
  obtain ⟨pre, rfl⟩ := h
  induction pre generalizing k with
  | nil => exact longestRunFrom_mono r 0 k (Nat.zero_le _)
  | cons c pre ih =>
    rw [List.cons_append, longestRunFrom]
    split_ifs
    · exact ih _
    · have := ih 0
      omega

theorem takeWhile_le_longestRun (p : Char → Bool) (hp : ∀ c, p c = true → isalnum c = true)
    (s : List Char) : ∀ k : Nat, (s.takeWhile p).length + k ≤ longestRunFrom k s := by
  induction s with
  | nil => intro k; simp [longestRunFrom]
  | cons c s ih =>
    intro k
    by_cases hc : p c = true
    · rw [List.takeWhile_cons_of_pos hc, longestRunFrom, if_pos (hp c hc)]
      have := ih (k + 1)
      simp only [List.length_cons]
      omega
    · rw [List.takeWhile_cons_of_neg hc]
      have := le_longestRunFrom (c :: s) k
      simpa using this

theorem stripSpace_run (p : Char → Bool) (hp : ∀ c, p c = true → isalnum c = true)
    (s : List Char) :
    stripSpace s = s.takeWhile p ++ stripSpace (s.dropWhile p) := by
  have h1 : stripSpace (s.takeWhile p) = s.takeWhile p := by
    unfold stripSpace
    rw [List.filter_eq_self]
    intro c hc
    simp [not_isspace_of_isalnum c (hp c (List.mem_takeWhile_imp hc))]
  conv_lhs => rw [← List.takeWhile_append_dropWhile p s]
  unfold stripSpace at h1 ⊢
  rw [List.filter_append, h1]

/-- One call of the lexer on an input without NUL and without a run of more
than 99 letters and digits: the input without its white space is the token
text followed by the unread input without its white space. -/
theorem getNextToken_text (s : List Char) (hnul : ∀ c ∈ s, c.toNat ≠ 0)
    (hrun : longestRun s ≤ 99) :
    stripSpace s = (getNextToken s).1.text ++ stripSpace (getNextToken s).2 := by
  induction s with
  | nil => simp [getNextToken, stripSpace]
  | cons c s ih =>
    have hnul2 : ∀ x ∈ s, x.toNat ≠ 0 := fun x hx => hnul x (List.mem_cons_of_mem _ hx)
    have hrun2 : longestRun s ≤ 99 :=
      (longestRun_suffix s (c :: s) (List.suffix_cons _ _) 0).trans hrun
    by_cases hs : isspace c = true
    · rw [getNextToken, if_pos hs, ← ih hnul2 hrun2]
      simp [stripSpace, hs]
    · have hsf : isspace c = false := by simpa using hs
      have hcons : stripSpace (c :: s) = c :: stripSpace s := by
        simp [stripSpace, hsf]
      by_cases ha : isalpha c = true
      · have hlen : (c :: s.takeWhile isalnum).length ≤ 99 := by
          have h1 := takeWhile_le_longestRun isalnum (fun _ h => h) s 1
          have h2 : longestRun (c :: s) = longestRunFrom 1 s := by
            simp [longestRun, longestRunFrom, isalnum, ha]
          simp only [List.length_cons]
          omega
        rw [getNextToken_alpha c s ha, hcons, List.take_of_length_le hlen,
          stripSpace_run isalnum (fun _ h => h) s]
        rfl
      · by_cases hd : isdigit c = true
        · have hp : ∀ x, isdigit x = true → isalnum x = true := fun x hx => by
            simp [isalnum, hx]
          have hlen : (c :: s.takeWhile isdigit).length ≤ 99 := by
            have h1 := takeWhile_le_longestRun isdigit hp s 1
            have h2 : longestRun (c :: s) = longestRunFrom 1 s := by
              simp [longestRun, longestRunFrom, isalnum, hd]
            simp only [List.length_cons]
            omega
          rw [getNextToken_digit c s hd, hcons, List.take_of_length_le hlen,
            stripSpace_run isdigit hp s]
          rfl
        · rw [getNextToken_symbol c s hsf (by simpa using ha) (by simpa using hd), hcons]
          have hc0 : c.toNat ≠ 0 := hnul c (List.mem_cons_self _ _)
          unfold scanSymbol
          split_ifs
          · split
            · split_ifs with he
              · subst he
                simp_all [stripSpace]
              · simp_all
            · simp_all [stripSpace]
          all_goals simp_all [cstr]

/-- On an input without NUL and without a run of more than 99 letters and
digits, the token texts concatenate to the input without its white space. -/
theorem tokenTexts_eq (n : Nat) : ∀ s : List Char, s.length ≤ n →
    (∀ c ∈ s, c.toNat ≠ 0) → longestRun s ≤ 99 → tokenTexts s = stripSpace s := by
  induction n with
  | zero =>
    intro s hn _ _
    have : s = [] := List.length_eq_zero.1 (by omega)
    subst this
    rfl
  | succ n ih =>
    intro s hn hnul hrun
    have hc := getNextToken_consumes s
    have ht := getNextToken_text s hnul hrun
    unfold tokenTexts at ih ⊢
    rw [tokenize_eq]
    split_ifs with he
    · obtain ⟨h1, h2, -⟩ := hc.2.2 he
      rw [ht, h1, h2]
      rfl
    · have hlt := hc.2.1 he
      obtain ⟨pre, hpre⟩ := hc.1
      have hnul2 : ∀ c ∈ (getNextToken s).2, c.toNat ≠ 0 := fun c hc2 =>
        hnul c (by rw [← hpre]; exact List.mem_append_right _ hc2)
      have hrun2 : longestRun (getNextToken s).2 ≤ 99 :=
        (longestRun_suffix _ s hc.1 0).trans hrun
      rw [List.map_cons, List.flatten_cons, ih _ (by omega) hnul2 hrun2, ← ht]

/-- C19 as stated fails on an input with a NUL byte and no long run: for
`a`, NUL, `b` the tokens are `a`, an unrecognized-character token whose text,
a C string, is empty, and `b`; the texts concatenate to `ab`, the NUL byte
being dropped. -/
theorem token_texts_drop_nul :
    longestRun nulSource ≤ 99 ∧
    tokenize nulSource =
      [⟨.TOKEN_IDENTIFIER, ['a']⟩, ⟨.TOKEN_UNKNOWN, []⟩, ⟨.TOKEN_IDENTIFIER, ['b']⟩] ∧
    tokenTexts nulSource = ['a', 'b'] ∧
    stripSpace nulSource = ['a', Char.ofNat 0, 'b'] ∧
    tokenTexts nulSource ≠ stripSpace nulSource := by
  decide

/-- C19, amended: for every input that holds no NUL byte and no run of
letters and digits longer than 99 characters, the concatenation of the texts
of all tokens returned by repeated calls of `getNextToken` up to the
end-of-input token is the input with its white space removed. -/
theorem token_texts_cover_input (s : List Char) (hnul : ∀ c ∈ s, c.toNat ≠ 0)
    (hrun : longestRun s ≤ 99) : tokenTexts s = stripSpace s :=
  tokenTexts_eq s.length s (Nat.le_refl _) hnul hrun

/-- C19, amended, on a source text over two lines with blanks and a tab. -/
theorem token_texts_cover_input_witness :
    longestRun spacedSource ≤ 99 ∧
    tokenTexts spacedSource = "intx1;x1=42;if(x1==42)\x7bx1=x1-1;\x7d".toList :=
  ⟨by decide, (token_texts_cover_input spacedSource (by decide) (by decide)).trans (by decide)⟩

/-! ## C18: termination of the parser -/

theorem tokenize_nil : tokenize [] = [] := rfl

/-- After `advance` the parser has the tokens of the unread input to look at;
the current token, unless it was the end-of-input token, is gone. -/
theorem remainingTokens_advance (g : Globals) :
    remainingTokens (advance g) = (tokenize g.file).length := by
  have hc := getNextToken_consumes g.file
  rw [tokenize_eq g.file]
  unfold remainingTokens advance
  simp only []
  split_ifs with he
  · rw [(hc.2.2 he).2.1, tokenize_nil]
    rfl
  · simp [Nat.add_comm]

theorem remainingTokens_advance_le (g : Globals) :
    remainingTokens (advance g) ≤ remainingTokens g := by
  rw [remainingTokens_advance]
  unfold remainingTokens
  omega

theorem remainingTokens_advance_lt (g : Globals) (h : g.currentToken.type ≠ .TOKEN_EOF) :
    remainingTokens (advance g) + 1 = remainingTokens g := by
  rw [remainingTokens_advance]
  unfold remainingTokens
  rw [if_neg h]
  omega

theorem remainingTokens_addSymbol (g : Globals) (n : List Char) (g1 : Globals)
    (h : addSymbol g n = .ok g1) : remainingTokens g1 = remainingTokens g := by
  rw [addSymbol_ok g g1 n h]
  rfl

/-- No parser function gives tokens back. -/
theorem parse_remainingTokens_le (fuel : Nat) (g : Globals) :
    remainingTokens (finalGlobals (parseTerm g)) ≤ remainingTokens g ∧
    remainingTokens (finalGlobals (parseExpression g)) ≤ remainingTokens g ∧
    remainingTokens (finalGlobals (parseCondition g)) ≤ remainingTokens g ∧
    remainingTokens (finalGlobals (parseStatement fuel g)) ≤ remainingTokens g ∧
    remainingTokens (finalGlobals (parseIfStatement fuel g)) ≤ remainingTokens g ∧
    ∀ stop, remainingTokens (finalGlobals (parseStatements stop fuel g)) ≤ remainingTokens g := by
  have hadv : ∀ x : Globals, remainingTokens x ≤ remainingTokens g →
      remainingTokens (advance x) ≤ remainingTokens g :=
    fun x hx => (remainingTokens_advance_le x).trans hx
  have hadd : ∀ (x : Globals) (n : List Char) (x1 : Globals),
      remainingTokens x ≤ remainingTokens g → addSymbol x n = .ok x1 →
      remainingTokens x1 ≤ remainingTokens g :=
    fun x n x1 hx ha => by rw [remainingTokens_addSymbol x n x1 ha]; exact hx
  have hp := parse_preserves (fun x => remainingTokens x ≤ remainingTokens g) hadv hadd fuel
  exact ⟨parseTerm_preserves _ hadv g (Nat.le_refl _),
    parseExpression_preserves _ hadv g (Nat.le_refl _),
    parseCondition_preserves _ hadv g (Nat.le_refl _),
    hp.1 g (Nat.le_refl _), hp.2.1 g (Nat.le_refl _), fun stop => hp.2.2 stop g (Nat.le_refl _)⟩

/-- What a successful `parseStatement` returns, with the token it started
at. -/
theorem parseStatement_ok_token (fuel : Nat) (g g1 : Globals) (node : ASTNode)
    (h : parseStatement fuel g = .ok (node, g1)) :
    ∃ n, fuel = n + 1 ∧
      ((g.currentToken.type = .TOKEN_INT ∧ parseDeclaration g = .ok (node, g1)) ∨
        (g.currentToken.type = .TOKEN_IDENTIFIER ∧ parseAssignment g = .ok (node, g1)) ∨
        (g.currentToken.type = .TOKEN_IF ∧ parseIfStatement n g = .ok (node, g1))) := by
  cases fuel with
  | zero => simp [parseStatement_zero] at h
  | succ n =>
    rw [parseStatement_succ] at h
    refine ⟨n, rfl, ?_⟩
    split_ifs at h with h1 h2 h3
    · exact Or.inl ⟨h1, h⟩
    · exact Or.inr (Or.inl ⟨h2, h⟩)
    · exact Or.inr (Or.inr ⟨h3, h⟩)

/-- A successful `parseStatement` consumes at least one token. -/
theorem parseStatement_consumes (fuel : Nat) (g g1 : Globals) (node : ASTNode)
    (h : parseStatement fuel g = .ok (node, g1)) :
    remainingTokens g1 < remainingTokens g := by
  obtain ⟨n, rfl, ⟨ht, h⟩ | ⟨ht, h⟩ | ⟨ht, h⟩⟩ := parseStatement_ok_token _ _ _ _ h
  · have h0 := remainingTokens_advance_lt g (by rw [ht]; decide)
    obtain ⟨g2, ha, -, rfl⟩ := parseDeclaration_ok _ _ _ h
    have h1 := remainingTokens_addSymbol _ _ _ ha
    have h2 := remainingTokens_advance_le g2
    have h3 := remainingTokens_advance_le (advance g2)
    omega
  · have h0 := remainingTokens_advance_lt g (by rw [ht]; decide)
    obtain ⟨e, g2, he, -, rfl, -⟩ := parseAssignment_ok _ _ _ h
    have h1 := (parse_remainingTokens_le 0 (advance (advance g))).2.1
    rw [he] at h1
    have h2 := remainingTokens_advance_le (advance g)
    have h3 := remainingTokens_advance_le g2
    simp only [finalGlobals] at h1
    omega
  · have h0 := remainingTokens_advance_lt g (by rw [ht]; decide)
    obtain ⟨m, c, g2, body, g4, rfl, hc, hb, -, rfl⟩ := parseIfStatement_ok _ _ _ _ h
    have h1 := (parse_remainingTokens_le 0 (advance (advance g))).2.2.1
    rw [hc] at h1
    have h2 := (parse_remainingTokens_le m (advance (advance g2))).2.2.2.2.2 .TOKEN_RBRACE
    rw [hb] at h2
    have h3 := remainingTokens_advance_le (advance g)
    have h4 := remainingTokens_advance_le g2
    have h5 := remainingTokens_advance_le (advance g2)
    have h6 := remainingTokens_advance_le g4
    simp only [finalGlobals] at h1 h2
    omega

theorem ranOut_parseTerm (g : Globals) : ranOut (parseTerm g) = false := by
  unfold parseTerm
  split_ifs <;> rfl

theorem ranOut_parseExpression (g : Globals) : ranOut (parseExpression g) = false := by
  unfold parseExpression
  have h1 := ranOut_parseTerm g
  cases ht : parseTerm g with
  | error e => rw [ht] at h1; exact h1
  | ok v =>
    obtain ⟨l, g1⟩ := v
    simp only []
    split_ifs
    · have h2 := ranOut_parseTerm (advance g1)
      cases ht2 : parseTerm (advance g1) with
      | error e => rw [ht2] at h2; exact h2
      | ok v => rfl
    · rfl

theorem ranOut_parseCondition (g : Globals) : ranOut (parseCondition g) = false := by
  unfold parseCondition
  simp only []
  split_ifs
  · rfl
  · have h2 := ranOut_parseTerm (advance (advance g))
    cases ht2 : parseTerm (advance (advance g)) with
    | error e => rw [ht2] at h2; exact h2
    | ok v => rfl

theorem ranOut_parseDeclaration (g : Globals) : ranOut (parseDeclaration g) = false := by
  unfold parseDeclaration
  simp only []
  split_ifs
  · rfl
  · cases ha : addSymbol (advance g) (advance g).currentToken.text with
    | error e =>
      unfold addSymbol at ha
      split_ifs at ha <;> cases ha <;> rfl
    | ok g2 =>
      simp only []
      split_ifs <;> rfl

theorem ranOut_parseAssignment (g : Globals) : ranOut (parseAssignment g) = false := by
  unfold parseAssignment
  simp only []
  split_ifs
  · rfl
  · rfl
  · have h2 := ranOut_parseExpression (advance (advance g))
    cases he : parseExpression (advance (advance g)) with
    | error e => rw [he] at h2; exact h2
    | ok v =>
      simp only []
      split_ifs <;> rfl

/-- With a recursion bound of three per remaining token (and two more for the
outermost loop) no parser function stops at the bound. -/
theorem parse_terminates (fuel : Nat) :
    (∀ g, 3 * remainingTokens g + 1 ≤ fuel → ranOut (parseStatement fuel g) = false) ∧
    (∀ g, g.currentToken.type ≠ .TOKEN_EOF → 3 * remainingTokens g ≤ fuel →
      ranOut (parseIfStatement fuel g) = false) ∧
    (∀ stop g, 3 * remainingTokens g + 2 ≤ fuel →
      ranOut (parseStatements stop fuel g) = false) := by
  induction fuel with
  | zero =>
    refine ⟨fun g h => by omega, fun g hne h => ?_, fun stop g h => by omega⟩
    have := remainingTokens_advance_lt g hne
    omega
  | succ n ih =>
    obtain ⟨ihS, ihI, ihL⟩ := ih
    refine ⟨?_, ?_, ?_⟩
    · intro g h
      rw [parseStatement_succ]
      split_ifs with h1 h2 h3
      · exact ranOut_parseDeclaration g
      · exact ranOut_parseAssignment g
      · exact ihI g (by rw [h3]; decide) (by omega)
      · rfl
    · intro g hne h
      have h0 := remainingTokens_advance_lt g hne
      rw [parseIfStatement_succ]
      split_ifs
      · rfl
      · have h1 := ranOut_parseCondition (advance (advance g))
        have h2 := (parse_remainingTokens_le 0 (advance (advance g))).2.2.1
        cases hc : parseCondition (advance (advance g)) with
        | error e => rw [hc] at h1; exact h1
        | ok v =>
          obtain ⟨c, g2⟩ := v
          rw [hc] at h2
          simp only [finalGlobals] at h2
          simp only []
          split_ifs
          · rfl
          · rfl
          · have h3 := remainingTokens_advance_le (advance g)
            have h4 := remainingTokens_advance_le g2
            have h5 := remainingTokens_advance_le (advance g2)
            have h6 := ihL .TOKEN_RBRACE (advance (advance g2)) (by omega)
            cases hb : parseStatements .TOKEN_RBRACE n (advance (advance g2)) with
            | error e => rw [hb] at h6; exact h6
            | ok v => rfl
    · intro stop g h
      rw [parseStatements_succ]
      split_ifs
      · have h1 := ihS g (by omega)
        cases hs : parseStatement n g with
        | error e => rw [hs] at h1; exact h1
        | ok v =>
          obtain ⟨s, g1⟩ := v
          have h2 := parseStatement_consumes _ _ _ _ hs
          have h3 := ihL stop g1 (by omega)
          simp only []
          cases hb : parseStatements stop n g1 with
          | error e => rw [hb] at h3; exact h3
          | ok v => rfl
      · rfl

/-- What a successful `parseIfStatement` returns, with the tokens it
checked. -/
theorem parseIfStatement_ok_token (fuel : Nat) (g g1 : Globals) (node : ASTNode)
    (h : parseIfStatement fuel g = .ok (node, g1)) :
    ∃ n c g2 body g4, fuel = n + 1 ∧ (advance g).currentToken.type = .TOKEN_LPAREN ∧
      parseCondition (advance (advance g)) = .ok (c, g2) ∧
      g2.currentToken.type = .TOKEN_RPAREN ∧
      (advance g2).currentToken.type = .TOKEN_LBRACE ∧
      parseStatements .TOKEN_RBRACE n (advance (advance g2)) = .ok (body, g4) ∧
      node = .NODE_IF c body ∧ g1 = advance g4 := by
  cases fuel with
  | zero => simp [parseIfStatement_zero] at h
  | succ n =>
    rw [parseIfStatement_succ] at h
    split_ifs at h with h1
    cases hc : parseCondition (advance (advance g)) with
    | error e => simp [hc] at h
    | ok v =>
      obtain ⟨c, g2⟩ := v
      simp only [hc] at h
      split_ifs at h with h2 h3
      cases hb : parseStatements .TOKEN_RBRACE n (advance (advance g2)) with
      | error e => simp [hb] at h
      | ok v =>
        obtain ⟨body, g4⟩ := v
        simp only [hb] at h
        cases h
        exact ⟨n, c, g2, body, g4, rfl, not_not.1 h1, rfl, not_not.1 h2, not_not.1 h3, hb,
          rfl, rfl⟩

/-- The nesting depth of a returned tree is at most the number of tokens the
parser had to look at. -/
theorem parse_depth (fuel : Nat) :
    (∀ g node g1, parseStatement fuel g = .ok (node, g1) → ifDepth node ≤ remainingTokens g) ∧
    (∀ g node g1, parseIfStatement fuel g = .ok (node, g1) →
      ifDepth node ≤ remainingTokens g) ∧
    (∀ stop g body g1, parseStatements stop fuel g = .ok (body, g1) →
      ifDepthList body ≤ remainingTokens g) := by
  induction fuel with
  | zero =>
    refine ⟨?_, ?_, ?_⟩ <;> intros <;>
      simp_all [parseStatement_zero, parseIfStatement_zero, parseStatements_zero]
  | succ k ih =>
    obtain ⟨ihS, ihI, ihL⟩ := ih
    refine ⟨?_, ?_, ?_⟩
    · intro g node g1 h
      obtain ⟨m, hm, h | h | h⟩ := parseStatement_ok _ _ _ _ h
      · obtain ⟨g2, ha, rfl, rfl⟩ := parseDeclaration_ok _ _ _ h
        simp [ifDepth]
      · obtain ⟨e, g2, he, rfl, rfl, -⟩ := parseAssignment_ok _ _ _ h
        simp [ifDepth]
      · cases Nat.succ.inj hm
        exact ihI g node g1 h
    · intro g node g1 h
      obtain ⟨m, c, g2, body, g4, hm, hl, hc, -, -, hb, rfl, rfl⟩ :=
        parseIfStatement_ok_token _ _ _ _ h
      cases Nat.succ.inj hm
      have h1 := ihL _ _ _ _ hb
      have h2 := (parse_remainingTokens_le 0 (advance (advance g))).2.2.1
      rw [hc] at h2
      simp only [finalGlobals] at h2
      have h3 := remainingTokens_advance_lt (advance g) (by rw [hl]; decide)
      have h4 := remainingTokens_advance_le g
      have h5 := remainingTokens_advance_le g2
      have h6 := remainingTokens_advance_le (advance g2)
      have hd : ifDepth (.NODE_IF c body) = 1 + ifDepthList body := by
        rw [ifDepth]
      omega
    · intro stop g body g1 h
      obtain ⟨m, hm, ⟨-, rfl, rfl⟩ | ⟨-, s, g2, rest, hs, hr, rfl⟩⟩ :=
        parseStatements_ok _ _ _ _ _ h
      · simp [ifDepthList]
      · cases Nat.succ.inj hm
        have h1 := ihS _ _ _ hs
        have h2 := ihL _ _ _ _ hr
        have h3 := parseStatement_consumes _ _ _ _ hs
        have hd : ifDepthList (s :: rest) = max (ifDepth s) (ifDepthList rest) := by
          rw [ifDepthList]
        omega

theorem tokenizeFuel_length_le (n : Nat) : ∀ s : List Char,
    (tokenizeFuel n s).length ≤ s.length := by
  induction n with
  | zero => intro s; simp [tokenizeFuel]
  | succ n ih =>
    intro s
    rw [tokenizeFuel]
    split_ifs with he
    · simp
    · have h1 := (getNextToken_consumes s).2.1 he
      have h2 := ih (getNextToken s).2
      simp only [List.length_cons]
      omega

/-- C18: with a recursion bound of at least three per token still to be
looked at, plus two, `parseProgram` does not stop at the bound: it returns a
tree or exits with one of the errors of `parser.c`, and a larger bound gives
the same result.  Every successful `parseStatement` consumes at least one
token; the statement loop of an `If` body that meets the end of input exits
with "Unknown statement"; the nesting depth of the `If` nodes of a returned
tree is at most the number of tokens.  For `main` on a source text a bound of
three per character, plus two, is enough. -/
theorem parser_terminates (fuel : Nat) (g : Globals)
    (hfuel : 3 * remainingTokens g + 2 ≤ fuel) :
    ranOut (parseProgram fuel g) = false ∧
    (∀ k, parseProgram (fuel + k) g = parseProgram fuel g) ∧
    (∀ f node g1, parseStatement f g = .ok (node, g1) →
      remainingTokens g1 < remainingTokens g) ∧
    (∀ f, g.currentToken.type = .TOKEN_EOF →
      parseStatements .TOKEN_RBRACE (f + 2) g = .error (.unknownStatement, g)) ∧
    (∀ f node g1, parseProgram f g = .ok (node, g1) → ifDepth node ≤ remainingTokens g) ∧
    (∀ (src : List Char) (f : Nat), 3 * src.length + 2 ≤ f →
      ranOut (main f src) = false ∧ ∀ k, main (f + k) src = main f src) := by
  have hloop : ∀ (f : Nat) (x : Globals), 3 * remainingTokens x + 2 ≤ f →
      ranOut (parseProgram f x) = false ∧ ∀ k, parseProgram (f + k) x = parseProgram f x := by
    intro f x hf
    have h1 := (parse_terminates f).2.2 .TOKEN_EOF x hf
    refine ⟨?_, fun k => ?_⟩
    · unfold parseProgram
      cases hb : parseStatements .TOKEN_EOF f x with
      | error e => rw [hb] at h1; exact h1
      | ok v => rfl
    · unfold parseProgram
      rw [parseStatements_fuel_add _ k f x h1]
  refine ⟨(hloop fuel g hfuel).1, (hloop fuel g hfuel).2,
    fun f node g1 h => parseStatement_consumes f g g1 node h, fun f he => ?_,
    fun f node g1 h => ?_, fun src f hf => ?_⟩
  · rw [parseStatements_succ, if_pos (by rw [he]; decide), parseStatement_succ]
    simp [he]
  · obtain ⟨body, rfl, hb⟩ := parseProgram_ok _ _ _ _ h
    rw [ifDepth]
    exact (parse_depth f).2.2 _ _ _ _ hb
  · have hrt : remainingTokens (advance (initGlobals src)) ≤ src.length := by
      rw [remainingTokens_advance]
      exact tokenizeFuel_length_le _ _
    obtain ⟨h1, h2⟩ := hloop f (advance (initGlobals src)) (by omega)
    refine ⟨?_, fun k => ?_⟩
    · unfold main
      cases hp : parseProgram f (advance (initGlobals src)) with
      | error e => rw [hp] at h1; exact h1
      | ok v =>
        obtain ⟨ast, g1⟩ := v
        obtain ⟨body, -, -, hG⟩ := generateCode_parsed _ _ _ _ hp
        simp only []
        rw [hG g1]
        rfl
    · unfold main
      rw [h2 k]

/-- C18 on the example of the specification, whose 21 tokens give the bound
65. -/
theorem parser_terminates_witness :
    remainingTokens (advance (initGlobals exampleSource)) = 21 ∧
    ranOut (parseProgram 65 (advance (initGlobals exampleSource))) = false ∧
    ifDepth exampleTree ≤ 21 :=
  ⟨by decide,
    (parser_terminates 65 (advance (initGlobals exampleSource)) (by decide)).1,
    ((parser_terminates 65 (advance (initGlobals exampleSource)) (by decide)).2.2.2.2.1 7
      exampleTree exampleParsed rfl).trans (by decide)⟩

/-! ## C11: the capacity of the symbol table -/

theorem tableBounded_addSymbol (g : Globals) (n : List Char) (g1 : Globals)
    (h : TableBounded g) (ha : addSymbol g n = .ok g1) : TableBounded g1 := by
  refine ⟨addSymbol_AddrInv g n g1 h.1 ha, ?_⟩
  have hc : symbolCount g < MAX_SYMBOLS := by
    unfold addSymbol at ha
    split_ifs at ha with h1 h2
    omega
  rw [addSymbol_ok g g1 n ha]
  simp only [symbolCount, List.length_append, List.length_singleton] at hc ⊢
  omega

/-- C12 (the code accepts the program): `if (5 == 5) { }` and
`if (int == 5) { }` are accepted, the number and the keyword becoming the
name of the `Var` node that is the left operand of the condition, and the
code generator prints `LOAD A, 0xFFFFFFFF` for the failed lookup. -/
theorem non_identifier_condition_accepted :
    parseProgram 4 (advance (initGlobals numberConditionSource)) =
      .ok (.NODE_PROGRAM [.NODE_IF (.NODE_BINOP '=' (.NODE_VAR ['5']) (.NODE_NUM 5)) []],
        { file := [], currentToken := ⟨.TOKEN_EOF, []⟩, symbolTable := [],
          nextMemoryAddress := 0x10, labelCounter := 0, asmFile := [] }) ∧
    main 4 numberConditionSource =
      .ok { file := [], currentToken := ⟨.TOKEN_EOF, []⟩, symbolTable := [],
            nextMemoryAddress := 0x10, labelCounter := 1,
            asmFile := [.LOAD (-1), .CMPI 5, .JNZ 0, .LABEL 0] } ∧
    parseProgram 4 (advance (initGlobals keywordConditionSource)) =
      .ok (.NODE_PROGRAM
          [.NODE_IF (.NODE_BINOP '=' (.NODE_VAR ['i', 'n', 't']) (.NODE_NUM 5)) []],
        { file := [], currentToken := ⟨.TOKEN_EOF, []⟩, symbolTable := [],
          nextMemoryAddress := 0x10, labelCounter := 0, asmFile := [] }) :=
  ⟨rfl, rfl, rfl⟩

/-! ## C13: one operator per expression -/

mutual
theorem expressionsOf_shape : ∀ s : ASTNode, isStatement s = true →
    ∀ e ∈ expressionsOf s, isExpression e = true
  | .NODE_DECL n, _ => by simp [expressionsOf]
  | .NODE_ASSIGN l r, h => by
    cases l <;> simp [isStatement] at h
    simpa [expressionsOf] using h
  | .NODE_IF c body, h => by
    simp only [isStatement, Bool.and_eq_true] at h
    rw [expressionsOf]
    exact expressionsOfList_shape body h.2
  | .NODE_PROGRAM b, h => by simp [isStatement] at h
  | .NODE_BINOP o l r, h => by simp [isStatement] at h
  | .NODE_VAR n, h => by simp [isStatement] at h
  | .NODE_NUM v, h => by simp [isStatement] at h
theorem expressionsOfList_shape : ∀ l : List ASTNode, isStatementList l = true →
    ∀ e ∈ expressionsOfList l, isExpression e = true
  | [], _ => by simp [expressionsOfList]
  | s :: rest, h => by
    simp only [isStatementList, Bool.and_eq_true] at h
    intro e he
    rw [expressionsOfList, List.mem_append] at he
    rcases he with he | he
    · exact expressionsOf_shape s h.1 e he
    · exact expressionsOfList_shape rest h.2 e he
end

/-- C13: in an assignment `v = t1 op1 t2 op2 ...` with `v` declared, `t1` and
`t2` terms that `parseTerm` accepts and `op1`, `op2` each `+` or `-`,
`parseAssignment` exits with "Missing semicolon" at `op2`, right after the
second term, and so does `parseStatement`.  What `parseExpression` returns is
a term or a `BinOp` of two terms, and so is the right-hand side of every
assignment in a tree that `parseProgram` returns. -/
theorem second_operator_rejected (fuel : Nat) (g g3 g5 : Globals) (l r : ASTNode)
    (hid : g.currentToken.type = .TOKEN_IDENTIFIER)
    (hdecl : lookupSymbol g.symbolTable g.currentToken.text ≠ -1)
    (hassign : (advance g).currentToken.type = .TOKEN_ASSIGN)
    (ht1 : parseTerm (advance (advance g)) = .ok (l, g3))
    (hop1 : g3.currentToken.type = .TOKEN_PLUS ∨ g3.currentToken.type = .TOKEN_MINUS)
    (ht2 : parseTerm (advance g3) = .ok (r, g5))
    (hop2 : g5.currentToken.type = .TOKEN_PLUS ∨ g5.currentToken.type = .TOKEN_MINUS) :
    parseAssignment g = .error (.missingSemicolon, g5) ∧
    parseStatement (fuel + 1) g = .error (.missingSemicolon, g5) ∧
    (∀ x e x1, parseExpression x = .ok (e, x1) → isExpression e = true) ∧
    (∀ f x prog x1, parseProgram f x = .ok (prog, x1) →
      ∀ e ∈ expressionsOf prog, isExpression e = true) := by
  have hne : g5.currentToken.type ≠ .TOKEN_SEMICOLON := by
    rcases hop2 with h | h <;> rw [h] <;> decide
  have he : parseExpression (advance (advance g)) =
      .ok (.NODE_BINOP (g3.currentToken.text.headD (Char.ofNat 0)) l r, g5) := by
    simp [parseExpression, ht1, hop1, ht2]
  have ha : parseAssignment g = .error (.missingSemicolon, g5) := by
    simp [parseAssignment, hdecl, hassign, he, hne]
  refine ⟨ha, by simp [parseStatement_succ, hid, ha],
    fun x e x1 h => parseExpression_shape x x1 e h, ?_⟩
  intro f x prog x1 h
  obtain ⟨body, rfl, hb⟩ := parseProgram_ok _ _ _ _ h
  rw [expressionsOf]
  exact expressionsOfList_shape body ((parse_shape f).2.2 _ _ _ _ hb)

/-- C13 on `x = 1 + 2 - 3;` after `int x;`: the exit is at `-`, with `3;`
unread. -/
theorem second_operator_rejected_witness :
    parseStatement 1 chainGlobals =
      .error (.missingSemicolon,
        { chainGlobals with file := " 3;".toList, currentToken := ⟨.TOKEN_MINUS, ['-']⟩ }) :=
  (second_operator_rejected 0 chainGlobals
    (advance (advance (advance chainGlobals)))
    (advance (advance (advance (advance (advance chainGlobals)))))
    (.NODE_NUM 1) (.NODE_NUM 2) rfl (by decide) rfl rfl (Or.inl rfl) rfl (Or.inr rfl)).2.1

/-! ## C17: an append-only table, and names of 32 and more characters -/

set_option maxRecDepth 100000 in
theorem toNat_ofNat_byte : ∀ k : Fin 256, (Char.ofNat k).toNat = k := by
  decide

set_option maxRecDepth 100000 in
theorem cstr_intBytes_byte :
    ∀ k : Fin 256, 0 < k.val → cstr (intBytes ((k.val : Nat) : Int)) = [Char.ofNat k] := by
  decide

theorem storedName_long (n : List Char) (k : Nat) (h : NAME_LEN ≤ n.length) (h0 : 0 < k)
    (hk : k < 256) : storedName n (k : Int) = n.take NAME_LEN ++ [Char.ofNat k] := by
  rw [storedName, if_neg (Nat.not_lt.2 h)]
  exact congrArg _ (cstr_intBytes_byte ⟨k, hk⟩ h0)

/-- A successful `addSymbol` keeps the invariant of the names. -/
theorem namesInv_addSymbol (g : Globals) (n : List Char) (g1 : Globals)
    (h : NamesInv g) (ha : addSymbol g n = .ok g1) : NamesInv g1 := by
  obtain ⟨hb, hu, hs⟩ := h
  have hl : lookupSymbol g.symbolTable n = -1 := by
    unfold addSymbol at ha
    split_ifs at ha with h1 h2
    exact not_not.1 h1
  have hc : symbolCount g < MAX_SYMBOLS := by
    unfold addSymbol at ha
    split_ifs at ha with h1 h2
    omega
  have hn := lookupSymbol_eq_notFound _ n (AddrInv.ne_notFound g hb.1) hl
  have hnext : g.nextMemoryAddress = ((16 + symbolCount g : Nat) : Int) := by
    rw [hb.1.2]
    simp [MEMORY_START]
  have hlong : NAME_LEN ≤ n.length →
      storedName n g.nextMemoryAddress = n.take NAME_LEN ++ [Char.ofNat (16 + symbolCount g)] := by
    intro hlen
    rw [hnext]
    exact storedName_long n _ hlen (by omega) (by simp only [MAX_SYMBOLS] at hc; omega)
  refine ⟨tableBounded_addSymbol g n g1 hb ha, ?_, ?_⟩
  · rw [addSymbol_ok g g1 n ha]
    unfold UniqueNames
    simp only [List.map_append, List.map_cons, List.map_nil]
    refine List.Nodup.append hu (List.nodup_singleton _) ?_
    intro x hx hx2
    rw [List.mem_singleton] at hx2
    subst hx2
    obtain ⟨s, hmem, hname⟩ := List.mem_map.1 hx
    by_cases hlen : n.length < NAME_LEN
    · rw [storedName_short n _ hlen] at hname
      exact hn s hmem hname
    · have hlen2 : NAME_LEN ≤ n.length := Nat.not_lt.1 hlen
      rw [hlong hlen2] at hname
      have h33 : NAME_LEN ≤ s.name.length := by
        rw [hname, List.length_append, List.length_take]
        simp only [NAME_LEN] at hlen2 ⊢
        omega
      have hlast := hs s hmem h33
      obtain ⟨i, rfl⟩ := List.get_of_mem hmem
      have e1 : (MEMORY_START + ((i : Nat) : Int)).toNat = 16 + (i : Nat) := by
        simp only [MEMORY_START]
        omega
      rw [hb.1.1 i, e1, hname] at hlast
      simp only [List.getLast?_append, List.getLast?_singleton, Option.or,
        Option.some.injEq] at hlast
      have hi : (i : Nat) < g.symbolTable.length := i.2
      simp only [symbolCount, MAX_SYMBOLS] at hc hlast
      have t1 := toNat_ofNat_byte ⟨16 + g.symbolTable.length, by omega⟩
      have t2 := toNat_ofNat_byte ⟨16 + (i : Nat), by omega⟩
      simp only [] at t1 t2
      rw [hlast, t2] at t1
      omega
  · rw [addSymbol_ok g g1 n ha]
    intro s hmem hlen
    rcases List.mem_append.1 hmem with hmem | hmem
    · exact hs s hmem hlen
    · rw [List.mem_singleton] at hmem
      subst hmem
      simp only [] at hlen ⊢
      by_cases hl2 : n.length < NAME_LEN
      · rw [storedName_short n _ hl2] at hlen
        omega
      · rw [hlong (Nat.not_lt.1 hl2), hnext, Int.toNat_ofNat]
        simp only [List.getLast?_append, List.getLast?_singleton, Option.or]

/-- What each statement-level parser function does to the table when it
returns: it appends. -/
theorem parse_appends (fuel : Nat) (g g1 : Globals) (node : ASTNode)
    (h : parseDeclaration g = .ok (node, g1) ∨ parseAssignment g = .ok (node, g1) ∨
      parseIfStatement fuel g = .ok (node, g1) ∨ parseStatement fuel g = .ok (node, g1)) :
    ∃ ext, g1.symbolTable = g.symbolTable ++ ext := by
  rcases h with h | h | h | h
  · obtain ⟨g2, ha, -, rfl⟩ := parseDeclaration_ok _ _ _ h
    exact ⟨_, by rw [addSymbol_ok _ _ _ ha]; rfl⟩
  · exact ⟨[], by rw [(parseAssignment_table _ _ _ h).1, List.append_nil]⟩
  · exact ⟨_, ((parse_declares fuel).2.1 _ _ _ h).1⟩
  · exact ⟨_, ((parse_declares fuel).1 _ _ _ h).1⟩

/-- The table only grows: a parser operation (`parseDeclaration`,
`parseAssignment`, `parseIfStatement`, `parseStatement`) that returns leaves
the table as the old one followed by new entries, so every old entry keeps
its position, stored name and address, and `lookupSymbol` of a name it found
still finds the same address, also after the closing brace of an `If`. -/
theorem table_appends (fuel : Nat) (g g1 : Globals) (node : ASTNode)
    (h : parseDeclaration g = .ok (node, g1) ∨ parseAssignment g = .ok (node, g1) ∨
      parseIfStatement fuel g = .ok (node, g1) ∨ parseStatement fuel g = .ok (node, g1)) :
    (∃ ext, g1.symbolTable = g.symbolTable ++ ext) ∧
    (∀ i, i < symbolCount g → g1.symbolTable[i]? = g.symbolTable[i]?) ∧
    (∀ n, lookupSymbol g.symbolTable n ≠ -1 →
      lookupSymbol g1.symbolTable n = lookupSymbol g.symbolTable n) := by
  obtain ⟨ext, hext⟩ := parse_appends fuel g g1 node h
  refine ⟨⟨ext, hext⟩, fun i hi => ?_, fun n hn => ?_⟩
  · rw [hext, List.getElem?_append_left hi]
  · rw [hext, lookupSymbol_append _ _ _ hn]

/-- A declared name of at most 31 characters is found: after `int n;` the
lookup of `n` gives the address the declaration handed out. -/
theorem declared_name_found (g g1 : Globals) (node : ASTNode) (hinv : AddrInv g)
    (h : parseDeclaration g = .ok (node, g1)) (hlen : node.name.length < NAME_LEN) :
    lookupSymbol g1.symbolTable node.name = g.nextMemoryAddress ∧
    g.nextMemoryAddress ≠ -1 := by
  obtain ⟨g2, ha, rfl, rfl⟩ := parseDeclaration_ok _ _ _ h
  have hinv1 : AddrInv (advance g) := hinv
  have hl : lookupSymbol (advance g).symbolTable (advance g).currentToken.text = -1 := by
    unfold addSymbol at ha
    split_ifs at ha with h1 h2
    exact not_not.1 h1
  have hn := lookupSymbol_eq_notFound _ _ (AddrInv.ne_notFound _ hinv1) hl
  have hne : g.nextMemoryAddress ≠ -1 := by
    rw [hinv.2]
    simp only [MEMORY_START]
    omega
  refine ⟨?_, hne⟩
  rw [addSymbol_ok _ _ _ ha]
  simp only [ASTNode.name] at hlen ⊢
  show lookupSymbol ((advance g).symbolTable ++ [_]) _ = _
  rw [lookupSymbol_append_new _ _ _ hn, storedName_short _ _ hlen, if_pos rfl]
  rfl

/-- The names stored in the table are pairwise distinct: the invariant of the
names holds at program start and after every parser operation, returning or
exiting. -/
theorem stored_names_distinct (fuel : Nat) (src : List Char) (g : Globals) (h : NamesInv g) :
    NamesInv (advance (initGlobals src)) ∧
    NamesInv (finalGlobals (parseDeclaration g)) ∧
    NamesInv (finalGlobals (parseAssignment g)) ∧
    NamesInv (finalGlobals (parseIfStatement fuel g)) ∧
    NamesInv (finalGlobals (parseStatement fuel g)) ∧
    NamesInv (finalGlobals (parseProgram fuel g)) ∧
    UniqueNames (finalGlobals (parseProgram fuel (advance (initGlobals src)))) := by
  have hinit : NamesInv (advance (initGlobals src)) :=
    ⟨⟨⟨fun i => i.elim0, rfl⟩, by simp [symbolCount, initGlobals, advance, MAX_SYMBOLS]⟩,
      List.nodup_nil, fun s hs => by simp [initGlobals, advance] at hs⟩
  have hp := parse_preserves NamesInv (fun _ hy => hy) namesInv_addSymbol fuel
  have hprog : ∀ x, NamesInv x → NamesInv (finalGlobals (parseProgram fuel x)) := by
    intro x hx
    have h3 := hp.2.2 .TOKEN_EOF x hx
    unfold parseProgram
    cases hb : parseStatements .TOKEN_EOF fuel x with
    | error e => rw [hb] at h3; exact h3
    | ok v => rw [hb] at h3; exact h3
  exact ⟨hinit, parseDeclaration_preserves NamesInv (fun _ hy => hy) namesInv_addSymbol g h,
    parseAssignment_preserves NamesInv (fun _ hy => hy) g h, hp.2.1 g h, hp.1 g h, hprog g h,
    (hprog _ hinit).2.1⟩

/-- C17 (a long name is not found again): in
`int x; if (x == 1) { int aa..a; } aa..a = 2;` with a name of 32 letters the
declaration inside the `If` stores the first 32 characters followed by the
byte `0x11` of the address, and the assignment after the closing brace exits
with "Variable used before declaration".  `int aa..a; int aa..a;` with the
same name is accepted: the table then holds two entries for the one name, at
`0x10` and `0x11`. -/
theorem long_name_not_found :
    main 9 longFlatScopeSource =
      .error (.usedBeforeDeclaration,
        { file := " = 2;".toList, currentToken := ⟨.TOKEN_IDENTIFIER, longName⟩,
          symbolTable := [⟨['x'], 0x10⟩, ⟨longName ++ [Char.ofNat 0x11], 0x11⟩],
          nextMemoryAddress := 0x12, labelCounter := 0, asmFile := [] }) ∧
    main 5 longRedeclaredSource =
      .ok { file := [], currentToken := ⟨.TOKEN_EOF, []⟩,
            symbolTable := [⟨longName ++ [Char.ofNat 0x10], 0x10⟩,
              ⟨longName ++ [Char.ofNat 0x11], 0x11⟩],
            nextMemoryAddress := 0x12, labelCounter := 0, asmFile := [] } ∧
    main 9 flatScopeSource =
      .ok { file := [], currentToken := ⟨.TOKEN_EOF, []⟩,
            symbolTable := [⟨['x'], 0x10⟩, ⟨['y'], 0x11⟩],
            nextMemoryAddress := 0x12, labelCounter := 1,
            asmFile := [.LOAD 0x10, .CMPI 1, .JNZ 0, .LABEL 0, .LOADI 2, .STORE 0x11] } :=
  ⟨rfl, rfl, rfl⟩

/-! ## C20: the save area is balanced -/

theorem saveScan_append (xs ys : List Instr) : ∀ b : Bool,
    saveScan b (xs ++ ys) = (saveScan b xs).bind (fun b1 => saveScan b1 ys) := by
  induction xs with
  | nil => intro b; rfl
  | cons i rest ih =>
    intro b
    rw [List.cons_append, saveScan, saveScan]
    cases saveStep b i with
    | none => rfl
    | some p => exact ih p

theorem saveDepth_append (xs ys : List Instr) :
    saveDepth (xs ++ ys) = saveDepth xs + saveDepth ys := by
  simp [saveDepth]

theorem saveScan_term (table : List Symbol) (t : ASTNode) (h : isTerm t = true) (b : Bool) :
    saveScan b (exprCode table t) = some b := by
  cases t <;> simp_all [isTerm, exprCode, saveScan, saveStep]

theorem saveScan_expression (table : List Symbol) (e : ASTNode)
    (h : isExpression e = true) : saveScan false (exprCode table e) = some false := by
  cases e with
  | NODE_BINOP op l r =>
    simp only [isExpression, Bool.and_eq_true] at h
    have hop : saveScan false [if op = '+' then Instr.ADD else Instr.SUB] = some false := by
      split_ifs <;> rfl
    have h1 : saveScan false [Instr.PUSH] = some true := rfl
    have h2 : saveScan true [Instr.POP] = some false := rfl
    simp only [exprCode, saveScan_append, saveScan_term table l h.1, saveScan_term table r h.2,
      Option.some_bind, h1, h2, hop]
  | NODE_NUM v => exact saveScan_term table (.NODE_NUM v) rfl false
  | NODE_VAR n => exact saveScan_term table (.NODE_VAR n) rfl false
  | NODE_PROGRAM b => simp [isExpression, isTerm] at h
  | NODE_DECL n => simp [isExpression, isTerm] at h
  | NODE_ASSIGN l r => simp [isExpression, isTerm] at h
  | NODE_IF c b => simp [isExpression, isTerm] at h

mutual
/-- The group of a parsed statement passes the check. -/
theorem stmtGroup_balanced (table : List Symbol) : ∀ (s : ASTNode) (label : Nat),
    isStatement s = true → saveScan false (stmtGroup table s label) = some false
  | .NODE_DECL n, label, _ => by
    simp [stmtGroup, saveScan]
  | .NODE_ASSIGN l r, label, h => by
    cases l <;> simp [isStatement] at h
    rw [stmtGroup, saveScan_append, saveScan_expression table r h]
    rfl
  | .NODE_IF c body, label, h => by
    simp only [isStatement, Bool.and_eq_true] at h
    obtain ⟨hc, hb⟩ := h
    obtain ⟨l, r, rfl, hr⟩ := isCondition_eq c hc
    have ih := stmtGroups_balanced table body (label + 1) hb
    have hg : stmtGroup table (.NODE_IF (.NODE_BINOP '=' (.NODE_VAR l) r) body) label =
        [.LOAD (lookupSymbol table l), cmpCode table r, .JNZ label] ++
          (stmtGroups table body (label + 1) ++ [.LABEL label]) := by
      rw [stmtGroup]
      rfl
    have h1 : saveScan false [.LOAD (lookupSymbol table l), cmpCode table r, .JNZ label] =
        some false := by
      cases r <;> rfl
    have h3 : saveScan false [Instr.LABEL label] = some false := rfl
    rw [hg, saveScan_append, h1, Option.some_bind, saveScan_append, ih, Option.some_bind, h3]
  | .NODE_PROGRAM b, _, h => by simp [isStatement] at h
  | .NODE_BINOP o l r, _, h => by simp [isStatement] at h
  | .NODE_VAR n, _, h => by simp [isStatement] at h
  | .NODE_NUM v, _, h => by simp [isStatement] at h
/-- The groups of a chain of parsed statements pass the check. -/
theorem stmtGroups_balanced (table : List Symbol) : ∀ (l : List ASTNode) (label : Nat),
    isStatementList l = true → saveScan false (stmtGroups table l label) = some false
  | [], label, _ => by
    simp [stmtGroups, saveScan]
  | s :: rest, label, h => by
    simp only [isStatementList, Bool.and_eq_true] at h
    have hg : stmtGroups table (s :: rest) label =
        stmtGroup table s label ++ stmtGroups table rest (label + countIf s) := by
      rw [stmtGroups]
    rw [hg, saveScan_append, stmtGroup_balanced table s label h.1]
    exact stmtGroups_balanced table rest _ h.2
end

end SimpleLang
